import Mathlib

/-!
# Instruction-count plugin (`contrib/plugins/insncounts.c`) and its reader
# (`contrib/plugins/insncountsctl.c`)

A shallow embedding of the two C programs.  The shared mapping is a function
from byte offsets (relative to `shm_ptr`) to bytes; the two `uint64_t` fields of
a `Counter` are stored little-endian.  A store that would fall outside the
`SHM_TOTAL_SIZE` bytes of the mapping, a read through a pointer past the end of
a C string, and a store through the `NULL` returned by `strchr` are faults: the
embedded function returns `none`.
-/

set_option maxRecDepth 100000

/-- One byte of memory. -/
abbrev Byte := Fin 256

/-- The mapping `shm_ptr[0 .. SHM_TOTAL_SIZE)`, addressed by byte offset. -/
abbrev Mem := Nat → Byte

/-- The macro `#define SHM_COUNT_SIZE (128 * 1024)`. -/
def SHM_COUNT_SIZE : Nat := 128 * 1024

/-- The macro `#define SHM_INAME_SIZE (128 * 1024)`. -/
def SHM_INAME_SIZE : Nat := 128 * 1024

/-- The macro `#define SHM_TOTAL_SIZE (SHM_COUNT_SIZE + SHM_INAME_SIZE)`. -/
def SHM_TOTAL_SIZE : Nat := SHM_COUNT_SIZE + SHM_INAME_SIZE

/-- The value of `sizeof(Counter)`: two `uint64_t` fields, `count` at byte 0 and `iname_off`
at byte 8. -/
def sizeof_Counter : Nat := 16

/-- The bytes of an ASCII string literal. -/
def bytes (s : String) : List Byte := s.toList.map (fun c => Fin.ofNat c.toNat)

/-- The byte of a character literal. -/
def byte (c : Char) : Byte := Fin.ofNat c.toNat

/-! ## Memory access -/

/-- The mapping of a file that `ftruncate` has just extended from length 0:
every byte reads as zero. -/
def zeroMem : Mem := fun _ => 0

/-- The call `memcpy(shm_ptr + a, src, src.length)` without the bounds check. -/
def writeBytes (m : Mem) (a : Nat) (src : List Byte) : Mem :=
  fun x => if a ≤ x ∧ x < a + src.length then src.getD (x - a) 0 else m x

/-- The `n` little-endian bytes of `v` (that is, of `v % 256 ^ n`). -/
def toLE : Nat → Nat → List Byte
  | 0, _ => []
  | n + 1, v => Fin.ofNat (v % 256) :: toLE n (v / 256)

/-- The value of a little-endian byte sequence. -/
def fromLE : List Byte → Nat
  | [] => 0
  | b :: t => b.val + 256 * fromLE t

/-- The `n` bytes at offsets `a, a+1, ..., a+n-1`. -/
def readBytes (m : Mem) (a : Nat) : Nat → List Byte
  | 0 => []
  | n + 1 => m a :: readBytes m (a + 1) n

/-- Load of a `uint64_t` at byte offset `a`. -/
def readU64 (m : Mem) (a : Nat) : Nat := fromLE (readBytes m a 8)

/-- Store of a `uint64_t` at byte offset `a`, without the bounds check. -/
def writeU64 (m : Mem) (a : Nat) (v : Nat) : Mem := writeBytes m a (toLE 8 v)

/-- A store of `src` at `shm_ptr + a`: it faults when it does not lie inside
the `SHM_TOTAL_SIZE` mapped bytes. -/
def store (m : Mem) (a : Nat) (src : List Byte) : Option Mem :=
  if a + src.length ≤ SHM_TOTAL_SIZE then some (writeBytes m a src) else none

/-- A `uint64_t` store at `shm_ptr + a`, faulting outside the mapping. -/
def storeU64 (m : Mem) (a : Nat) (v : Nat) : Option Mem := store m a (toLE 8 v)

/-- The C string at `shm_ptr + a`: the bytes up to the first NUL.  `fuel` is the
number of mapped bytes from `a` on; running off the mapping is a fault. -/
def readCStrAux (m : Mem) : Nat → Nat → Option (List Byte)
  | 0, _ => none
  | fuel + 1, a => if m a = 0 then some [] else (readCStrAux m fuel (a + 1)).map (m a :: ·)

/-- The C string at `shm_ptr + a`, as `printf("%s")` reads it. -/
def readCStr (m : Mem) (a : Nat) : Option (List Byte) :=
  readCStrAux m (SHM_TOTAL_SIZE - a) a

/-! ## C strings held in a transient buffer -/

/-- The call `strchr(s, c)` on the buffer `s` followed by its terminating NUL: the index
of the first `c`, scanning no further than the first NUL; `none` is `NULL`. -/
def strchr : List Byte → Byte → Option Nat
  | [], c => if c = 0 then some 0 else none
  | b :: t, c =>
    if b = c then some 0
    else if b = 0 then none
    else (strchr t c).map (· + 1)

/-- The call `strlen(s)` on the buffer `s` followed by its terminating NUL. -/
def strlen : List Byte → Nat
  | [] => 0
  | b :: t => if b = 0 then 0 else strlen t + 1

/-- The call `g_str_equal(shm_ptr + key, name)`: byte-wise comparison of the C string in
the mapping at offset `key` with the C string `name`. -/
def g_str_equal (m : Mem) (key : Nat) : List Byte → Bool
  | [] => m key = 0
  | b :: t => if b = 0 then m key = 0 else m key = b && g_str_equal m (key + 1) t

/-! ## The writer: `insncounts.c` -/

namespace insncounts

/-- The file-scope variables of `insncounts.c` together with the contents of the
mapping.  `insns` is the `GHashTable`: each entry is a key pointer (the offset in
the mapping of the store-resident name) and a value pointer (the offset of the
`Counter`); the newest entry comes first.  The `int` offsets never leave
`[0, SHM_TOTAL_SIZE + 16]` on a run without fault, so they are kept as `Nat`. -/
structure State where
  mem : Mem
  insns : List (Nat × Nat)
  shm_count_off : Nat
  shm_iname_off : Nat
  iname_end : Byte
  iname_off : Nat
  low_bound : Nat
  high_bound : Nat

/-- One instruction of a translated block: `qemu_plugin_insn_vaddr` and the text
returned by `qemu_plugin_insn_disas` (the bytes before the terminating NUL). -/
structure Insn where
  vaddr : Nat
  disas : List Byte

/-- The call `g_hash_table_lookup(insns, name)` with `g_str_equal` as key equality: the
`Counter` offset stored under the first key whose C string equals `name`. -/
def g_hash_table_lookup (m : Mem) : List (Nat × Nat) → List Byte → Option Nat
  | [], _ => none
  | (key, counter) :: rest, name =>
    if g_str_equal m key name then some counter else g_hash_table_lookup m rest name

/-- Lines 138-149: the first sighting of `name`.  Writes the new `Counter` at
`shm_count_off`, copies `name` and its NUL to `shm_iname_off`, advances both
offsets and inserts the store-resident name into the table.  Returns the new
state and the `Counter` offset. -/
def allocate_slot (st : State) (name : List Byte) : Option (State × Nat) :=
  let counter := st.shm_count_off
  (storeU64 st.mem (counter + 8) st.shm_iname_off).bind fun m1 =>
  (storeU64 m1 counter 0).bind fun m2 =>
  let iname_len := name.length + 1
  (store m2 st.shm_iname_off (name ++ [0])).bind fun m3 =>
  some ({ st with
            mem := m3
            shm_count_off := st.shm_count_off + sizeof_Counter
            shm_iname_off := st.shm_iname_off + iname_len
            insns := (st.shm_iname_off, counter) :: st.insns }, counter)

/-- Lines 134-150: look `name` up and allocate a slot when it is new. -/
def resolve (st : State) (name : List Byte) : Option (State × Nat) :=
  match g_hash_table_lookup st.mem st.insns name with
  | some counter => some (st, counter)
  | none => allocate_slot st name

/-- Lines 129-133: `name = disas + iname_off; p = strchr(name, iname_end);
*p = 0`.  The result is the C string then found at `name`.  Forming `name` past
the terminating NUL of `disas` and storing through a `NULL` `p` are faults. -/
def mnemonic (iname_off : Nat) (iname_end : Byte) (disas : List Byte) : Option (List Byte) :=
  if iname_off ≤ strlen disas then
    let name := disas.drop iname_off
    match strchr name iname_end with
    | some p => some (name.take p)
    | none => none
  else none

/-- The body of the loop of `vcpu_tb_trans` (lines 120-155) for one instruction.
Returns the new state and the address handed to
`qemu_plugin_register_vcpu_insn_exec_inline` (`&counter->count`), if any. -/
def classify (st : State) (insn : Insn) : Option (State × Option Nat) :=
  if insn.vaddr < st.low_bound ∨ insn.vaddr > st.high_bound then
    some (st, none)
  else if insn.disas.headD 0 ≠ byte 'A' then
    (mnemonic st.iname_off st.iname_end insn.disas).bind fun name =>
    (resolve st name).bind fun r =>
    some (r.1, some r.2)
  else
    some (st, none)

/-- The function `vcpu_tb_trans` (lines 114-157): the loop over the instructions of a block.
The second component lists, instruction by instruction, the inline-add target
registered for it. -/
def vcpu_tb_trans (st : State) : List Insn → Option (State × List (Option Nat))
  | [] => some (st, [])
  | insn :: rest =>
    (classify st insn).bind fun r =>
    (vcpu_tb_trans r.1 rest).bind fun r2 =>
    some (r2.1, r.2 :: r2.2)

/-- The zero-initialised file-scope variables at program start. -/
def boot : State :=
  { mem := zeroMem, insns := [], shm_count_off := 0, shm_iname_off := 0,
    iname_end := 0, iname_off := 0, low_bound := 0, high_bound := 0 }

/-- The test `strstr(hay, needle) != NULL`. -/
def strstr (hay needle : List Byte) : Bool :=
  hay.tails.any (fun t => needle.isPrefixOf t)

/-- Outcomes of the system calls of `plugin_init`: whether `open`, the two
`ftruncate` calls and `mmap` succeed. -/
structure Env where
  open_ok : Bool
  shrink_ok : Bool
  expand_ok : Bool
  mmap_ok : Bool

/-- The function `plugin_init` (lines 41-90): returns the return value and the variables
afterwards.  On success the mapping is the freshly extended, all-zero file. -/
def plugin_init (env : Env) (st : State) (target_name : List Byte) : Int × State :=
  let rule : Option (Nat × Byte) :=
    if strstr target_name (bytes "loongarch64") then some (8 + 3, byte '\t')
    else if strstr target_name (bytes "aarch64") then some (0, byte ' ')
    else if strstr target_name (bytes "riscv64") then some (18, byte ' ')
    else none
  match rule with
  | none => (-1, st)
  | some (off, stop) =>
    let st1 := { st with iname_off := off, iname_end := stop }
    if !env.open_ok then (-1, st1)
    else if !env.shrink_ok then (-1, st1)
    else if !env.expand_ok then (-1, st1)
    else if !env.mmap_ok then (-1, st1)
    else (0, { st1 with mem := zeroMem, shm_iname_off := SHM_COUNT_SIZE, insns := [] })

/-- The call `g_strsplit(opt, "=", -1)`: the pieces of `opt` between the `=` signs; the
empty string gives the empty vector. -/
def g_strsplit_eq (opt : List Byte) : List (List Byte) :=
  if opt = [] then [] else opt.splitOn (byte '=')

/-- Value of a hexadecimal digit. -/
def hexDigit (b : Byte) : Option Nat :=
  if 48 ≤ b.val ∧ b.val ≤ 57 then some (b.val - 48)
  else if 97 ≤ b.val ∧ b.val ≤ 102 then some (b.val - 87)
  else if 65 ≤ b.val ∧ b.val ≤ 70 then some (b.val - 55)
  else none

/-- Value of the longest prefix of hexadecimal digits, starting from `acc`. -/
def hexDigits (acc : Nat) : List Byte → Nat
  | [] => acc
  | b :: t =>
    match hexDigit b with
    | some d => hexDigits (16 * acc + d) t
    | none => acc

/-- The function `isspace` in the C locale. -/
def isspace (b : Byte) : Bool := b.val = 32 ∨ (9 ≤ b.val ∧ b.val ≤ 13)

/-- The call `g_ascii_strtoull(s, NULL, 16)` as GLib documents it (the behaviour of
`strtoull` in the C locale): leading white space, an optional sign, an optional
`0x`, then hexadecimal digits; a value that does not fit is `G_MAXUINT64`, and a
leading minus negates the value modulo `2^64`. -/
def g_ascii_strtoull16 (s : List Byte) : Nat :=
  let s1 := s.dropWhile isspace
  let signed : Bool × List Byte :=
    match s1 with
    | b :: t => if b = byte '-' then (true, t) else if b = byte '+' then (false, t) else (false, s1)
    | [] => (false, s1)
  let s3 : List Byte :=
    match signed.2 with
    | z :: x :: t =>
      if z = byte '0' ∧ (x = byte 'x' ∨ x = byte 'X') then t else signed.2
    | _ => signed.2
  let v := hexDigits 0 s3
  if 2 ^ 64 ≤ v then 2 ^ 64 - 1
  else if signed.1 then (2 ^ 64 - v) % 2 ^ 64
  else v

/-- The option loop of `qemu_plugin_install` (lines 165-177).  `none` is the
fault of handing the `NULL` second token of an option without `=` to
`g_ascii_strtoull`; otherwise the result tells whether the loop ran to its end
(`true`) or returned `-1` (`false`), with the variables as they then are. -/
def parse_options (st : State) : List (List Byte) → Option (Bool × State)
  | [] => some (true, st)
  | opt :: rest =>
    let tokens := g_strsplit_eq opt
    if tokens.head? = some (bytes "low") then
      match tokens.tail.head? with
      | some v => parse_options { st with low_bound := g_ascii_strtoull16 v } rest
      | none => none
    else if tokens.head? = some (bytes "high") then
      match tokens.tail.head? with
      | some v => parse_options { st with high_bound := g_ascii_strtoull16 v } rest
      | none => none
    else some (false, st)

/-- The function `qemu_plugin_install` (lines 160-186): the return value and the variables
afterwards. -/
def qemu_plugin_install (env : Env) (st : State) (target_name : List Byte)
    (argv : List (List Byte)) : Option (Int × State) :=
  (parse_options st argv).map fun r =>
    if r.1 then
      let r2 := plugin_init env r.2 target_name
      if r2.1 < 0 then (-1, r2.2) else (0, r2.2)
    else (-1, r.2)

/-- The system calls all succeed. -/
def okEnv : Env := { open_ok := true, shrink_ok := true, expand_ok := true, mmap_ok := true }

/-! ### Execution of translated code

`qemu_plugin_register_vcpu_insn_exec_inline(insn, QEMU_PLUGIN_INLINE_ADD_U64,
&counter->count, 1)` belongs to the plugin interface of the emulator, which is
not part of the two source files. -/

/-- Modelled from the spec: the inline-increment facility of the emulator, which
"atomically add[s] 1 to the slot's `count` field every time that specific
instruction executes".  One execution of an instruction with a registered
target adds 1, modulo `2^64`, to the `uint64_t` at that target. -/
def inline_add_u64 (m : Mem) (target : Nat) : Mem :=
  writeU64 m target ((readU64 m target + 1) % 2 ^ 64)

/-- What the emulator does, as far as the plugin can observe: it translates a
block (calling `vcpu_tb_trans` once), or it executes instruction `i` of the
`b`-th block translated so far. -/
inductive Event where
  | trans (tb : List Insn)
  | exec (b i : Nat)

/-- The plugin state together with the emulator's translation cache: for every
translated block, the inline-add target attached to each instruction. -/
structure Sys where
  st : State
  cache : List (List (Option Nat))

/-- One event.  Executing an instruction that has no registered target, or that
has not been translated, leaves the mapping alone. -/
def step (sys : Sys) : Event → Option Sys
  | .trans tb =>
    (vcpu_tb_trans sys.st tb).map fun r => { st := r.1, cache := sys.cache ++ [r.2] }
  | .exec b i =>
    match (sys.cache.getD b []).getD i none with
    | some target => some { sys with st := { sys.st with mem := inline_add_u64 sys.st.mem target } }
    | none => some sys

/-- A sequence of events, in order. -/
def run (sys : Sys) : List Event → Option Sys
  | [] => some sys
  | e :: rest => (step sys e).bind fun sys1 => run sys1 rest

/-- All tokens resolved in order (lines 134-150 for each), dropping the slot
references. -/
def resolveAll (st : State) : List (List Byte) → Option State
  | [] => some st
  | name :: rest => (resolve st name).bind fun r => resolveAll r.1 rest

end insncounts

/-! ## The reader: `insncountsctl.c` -/

namespace insncountsctl

/-- The loop of `main` (lines 56-70), started at offset `off` with `n` slots of
the count region still ahead.  In reset mode the `count` fields are zeroed; in
report mode each `(name, counter->count)` pair handed to `printf` is collected.
The name is read through `shm_ptr + counter->iname_off`, a fault when the
string is not inside the mapping. -/
def walk (reset : Bool) : Nat → Nat → Mem → Option (Mem × List (List Byte × Nat))
  | 0, _, m => some (m, [])
  | n + 1, off, m =>
    if readU64 m (off + 8) = 0 then some (m, [])
    else if reset then walk reset n (off + sizeof_Counter) (writeU64 m off 0)
    else
      (readCStr m (readU64 m (off + 8))).bind fun name =>
      (walk reset n (off + sizeof_Counter) m).map fun r => (r.1, (name, readU64 m off) :: r.2)

/-- The function `main` (lines 23-76) for `argc` arguments, with the outcome of `open` and
`mmap` and the contents `m` of the backing file: the return value, the contents
afterwards and the pairs printed. -/
def main (argc : Nat) (open_ok mmap_ok : Bool) (m : Mem) :
    Option (Int × Mem × List (List Byte × Nat)) :=
  if argc < 2 then some (-1, m, [])
  else if !open_ok then some (-1, m, [])
  else if !mmap_ok then some (-1, m, [])
  else
    let reset : Bool := argc > 2
    (walk reset (SHM_COUNT_SIZE / sizeof_Counter) 0 m).map fun r => (0, r.1, r.2)

end insncountsctl

/-! ## Specification-side notions -/

namespace insncounts

/-- Bytes taken in the name region by a list of names, each with its NUL. -/
def totalBytes (names : List (List Byte)) : Nat := (names.map (fun n => n.length + 1)).sum

/-- Offset in the mapping at which the `k`-th name of a densely packed name
region starts. -/
def nameOff (names : List (List Byte)) (k : Nat) : Nat :=
  SHM_COUNT_SIZE + totalBytes (names.take k)

/-- The distinct tokens of a sequence in order of first appearance, continuing
from the list `acc` of tokens already seen. -/
def firstSeen (acc : List (List Byte)) : List (List Byte) → List (List Byte)
  | [] => acc
  | t :: rest => firstSeen (if t ∈ acc then acc else acc ++ [t]) rest

/-- The state right after a successful `plugin_init`, for a slicing rule
(`iname_off`, `iname_end`) and an address window. -/
def fresh (iname_off : Nat) (iname_end : Byte) (low high : Nat) : State :=
  { mem := zeroMem, insns := [], shm_count_off := 0, shm_iname_off := SHM_COUNT_SIZE,
    iname_end := iname_end, iname_off := iname_off, low_bound := low, high_bound := high }

/-- The layout of the store after the names `names` have been allocated in this
order, within the capacity of both regions. -/
structure Inv (s : State) (names : List (List Byte)) : Prop where
  nodup : names.Nodup
  nonul : ∀ n ∈ names, (0 : Byte) ∉ n
  count_off : s.shm_count_off = 16 * names.length
  iname_off : s.shm_iname_off = SHM_COUNT_SIZE + totalBytes names
  cap_count : 16 * names.length ≤ SHM_COUNT_SIZE
  cap_iname : totalBytes names ≤ SHM_INAME_SIZE
  slot_off : ∀ k, k < names.length → readU64 s.mem (16 * k + 8) = nameOff names k
  name_at : ∀ k (h : k < names.length),
    readBytes s.mem (nameOff names k) (names[k].length + 1) = names[k] ++ [0]
  unused : ∀ a, 16 * names.length ≤ a → a < SHM_COUNT_SIZE → s.mem a = 0
  table : s.insns = ((List.range names.length).map (fun k => (nameOff names k, 16 * k))).reverse

/-- The mapping after the three stores of `allocate_slot`. -/
def allocMem (s : State) (name : List Byte) : Mem :=
  writeBytes (writeU64 (writeU64 s.mem (s.shm_count_off + 8) s.shm_iname_off) s.shm_count_off 0)
    s.shm_iname_off (name ++ [0])

/-- The state after `allocate_slot` when none of its stores faults. -/
def allocState (s : State) (name : List Byte) : State :=
  { s with
      mem := allocMem s name
      shm_count_off := s.shm_count_off + sizeof_Counter
      shm_iname_off := s.shm_iname_off + (name.length + 1)
      insns := (s.shm_iname_off, s.shm_count_off) :: s.insns }

/-- What the reader relies on: the part of the layout that can be read off the
mapping alone. -/
structure Layout (m : Mem) (names : List (List Byte)) : Prop where
  nonul : ∀ n ∈ names, (0 : Byte) ∉ n
  cap_count : 16 * names.length ≤ SHM_COUNT_SIZE
  cap_iname : totalBytes names ≤ SHM_INAME_SIZE
  slot_off : ∀ k, k < names.length → readU64 m (16 * k + 8) = nameOff names k
  name_at : ∀ k (h : k < names.length),
    readBytes m (nameOff names k) (names[k].length + 1) = names[k] ++ [0]
  sentinel : 16 * names.length < SHM_COUNT_SIZE → readU64 m (16 * names.length + 8) = 0

/-- The `count` fields of the slots `j, j+1, ..., j+n-1`. -/
def countsFrom (m : Mem) (j n : Nat) : List Nat :=
  (List.range n).map (fun i => readU64 m (16 * (j + i)))

/-- The mnemonic token of an instruction that passes the address window of
`cfg` and whose text is not the out-of-bounds diagnostic, sliced by the rule of
`cfg`; `none` for every other instruction. -/
def tokenOf (cfg : State) (insn : Insn) : Option (List Byte) :=
  if cfg.low_bound ≤ insn.vaddr ∧ insn.vaddr ≤ cfg.high_bound ∧ insn.disas.headD 0 ≠ byte 'A' then
    mnemonic cfg.iname_off cfg.iname_end insn.disas
  else none

/-- Instruction `i` of the `b`-th translated block, if there is one. -/
def insnAt (tbs : List (List Insn)) (b i : Nat) : Option Insn :=
  (tbs[b]?).bind fun tb => tb[i]?

/-- The blocks translated so far, after the events. -/
def translated (tbs : List (List Insn)) : List Event → List (List Insn)
  | [] => tbs
  | .trans tb :: rest => translated (tbs ++ [tb]) rest
  | .exec _ _ :: rest => translated tbs rest

/-- The number of executions, among the events, of translated in-window
instructions whose mnemonic token is `m`; `tbs` are the blocks translated
before the events. -/
def execCount (cfg : State) (tbs : List (List Insn)) : List Event → List Byte → Nat
  | [], _ => 0
  | .trans tb :: rest, m => execCount cfg (tbs ++ [tb]) rest m
  | .exec b i :: rest, m =>
    (if (insnAt tbs b i).bind (tokenOf cfg) = some m then 1 else 0) + execCount cfg tbs rest m

/-- Position of the first occurrence of `m` in `names` (the length of `names`
when there is none). -/
def indexIn (m : List Byte) : List (List Byte) → Nat
  | [] => 0
  | n :: rest => if n = m then 0 else indexIn m rest + 1

/-- The inline-add target expected for an instruction when the names `names`
are allocated in this order: the `count` field of the slot of its token. -/
def regOf (cfg : State) (names : List (List Byte)) (insn : Insn) : Option Nat :=
  (tokenOf cfg insn).map fun m => 16 * indexIn m names

/-- Two blocks that each hold an `add`, followed by one execution of each
`add`. -/
def twoAdds : List Event :=
  [.trans [Insn.mk 4096 (bytes "add x1, x2, x3")],
   .trans [Insn.mk 4100 (bytes "sub x1, x2, x3"), Insn.mk 4104 (bytes "add x4, x5, x6")],
   .exec 0 0, .exec 1 1]

/-- One block holding an `add`, executed five times. -/
def fiveRuns : List Event :=
  [.trans [Insn.mk 4096 (bytes "add x1, x2, x3")],
   .exec 0 0, .exec 0 0, .exec 0 0, .exec 0 0, .exec 0 0]

/-- The system after `twoAdds` on a fresh store with the offset-0,
space-terminated rule and the full window. -/
def afterTwoAdds : Sys :=
  (run ⟨fresh 0 (byte ' ') 0 (2 ^ 64 - 1), []⟩ twoAdds).getD ⟨fresh 0 (byte ' ') 0 (2 ^ 64 - 1), []⟩

/-- The system after `fiveRuns` on the same fresh store. -/
def afterFiveRuns : Sys :=
  (run ⟨fresh 0 (byte ' ') 0 (2 ^ 64 - 1), []⟩ fiveRuns).getD ⟨fresh 0 (byte ' ') 0 (2 ^ 64 - 1), []⟩

/-- Two states with the same slicing rule and address window. -/
def SameConfig (s t : State) : Prop :=
  s.iname_end = t.iname_end ∧ s.iname_off = t.iname_off ∧
  s.low_bound = t.low_bound ∧ s.high_bound = t.high_bound

/-- The effect of a translation step that takes the state `s`, laid out for
`names`, to the state `t`: the names `ext` are appended, the `count` fields of
the old slots are untouched and those of the new slots are zero. -/
structure Grows (s t : State) (names ext : List (List Byte)) : Prop where
  inv : Inv t (names ++ ext)
  old : ∀ k, k < names.length → readU64 t.mem (16 * k) = readU64 s.mem (16 * k)
  new : ∀ k, names.length ≤ k → k < (names ++ ext).length → readU64 t.mem (16 * k) = 0
  same : SameConfig s t

/-- The invariant of a run of the emulator with the plugin: the store is laid
out for `names`, the translation cache holds for every instruction of the
translated blocks `tbs` the slot of its token, and the `count` field of the slot
of a mnemonic holds the number `c` of its executions modulo `2^64`. -/
structure SysInv (cfg : State) (sys : Sys) (tbs : List (List Insn)) (names : List (List Byte))
    (c : List Byte → Nat) : Prop where
  inv : Inv sys.st names
  same : SameConfig cfg sys.st
  cache : sys.cache = tbs.map fun tb => tb.map (regOf cfg names)
  toks : ∀ tb ∈ tbs, ∀ insn ∈ tb, ∀ m, tokenOf cfg insn = some m → m ∈ names
  counts : ∀ k (h : k < names.length), readU64 sys.st.mem (16 * k) = c names[k] % 2 ^ 64
  unseen : ∀ m, m ∉ names → c m = 0

end insncounts

/-! ## Further notions for the reader -/

namespace insncountsctl

/-- The number of slots that the loop of `main` passes before it stops, when it
stands at slot `k` with `n` slots of the count region still ahead: the slots
before the first one whose `iname_off` is 0. -/
def occupied (m : Mem) : Nat → Nat → Nat
  | 0, _ => 0
  | n + 1, k => if readU64 m (16 * k + 8) = 0 then 0 else occupied m n (k + 1) + 1

/-- The mapping `m` with the `count` fields (bytes 0 to 7) of the slots
`k, ..., k + j - 1` zeroed and every other byte kept. -/
def zeroCounts (m : Mem) (k j : Nat) : Mem :=
  fun x => if 16 * k ≤ x ∧ x < 16 * (k + j) ∧ x % 16 < 8 then 0 else m x

end insncountsctl

namespace insncountsctl

/-- The decimal digits of `n`, most significant first, put in front of `acc`;
`fuel` bounds the number of digits. -/
def decimalAux : Nat → Nat → List Byte → List Byte
  | 0, _, acc => acc
  | fuel + 1, n, acc =>
    if n / 10 = 0 then Fin.ofNat (48 + n % 10) :: acc
    else decimalAux fuel (n / 10) (Fin.ofNat (48 + n % 10) :: acc)

/-- The decimal numeral of a number below `10^20`, as `printf` writes it. -/
def decimal (n : Nat) : List Byte := decimalAux 20 n []

/-- The conversion `%` `PRId64` of `printf` applied to the `uint64_t` value `v`:
the argument is read as a signed 64-bit integer in two's complement. -/
def print_PRId64 (v : Nat) : List Byte :=
  if v % 2 ^ 64 < 2 ^ 63 then decimal (v % 2 ^ 64)
  else byte '-' :: decimal (2 ^ 64 - v % 2 ^ 64)

/-- The conversion `%-12s` of `printf`: the string, then spaces up to a width of
12 when it is shorter. -/
def print_s12 (name : List Byte) : List Byte :=
  name ++ List.replicate (12 - name.length) (byte ' ')

/-- The line written by `printf(fmt, name, counter->count)` with the format
`"    %-12s\t%" PRId64 "\n"` of line 66. -/
def format_line (name : List Byte) (count : Nat) : List Byte :=
  bytes "    " ++ print_s12 name ++ [byte '\t'] ++ print_PRId64 count ++ [byte '\n']

/-- The standard output of a run of `main`: one line for each pair printed. -/
def stdout_of (r : Option (Int × Mem × List (List Byte × Nat))) : Option (List (List Byte)) :=
  r.map fun x => x.2.2.map fun e => format_line e.1 e.2

end insncountsctl

namespace insncounts

/-- The function `plugin_init` (lines 41-90) once more, with a third component
that tells whether control reaches the call of `open` in line 60. -/
def plugin_init_traced (env : Env) (st : State) (target_name : List Byte) : Int × State × Bool :=
  let rule : Option (Nat × Byte) :=
    if strstr target_name (bytes "loongarch64") then some (8 + 3, byte '\t')
    else if strstr target_name (bytes "aarch64") then some (0, byte ' ')
    else if strstr target_name (bytes "riscv64") then some (18, byte ' ')
    else none
  match rule with
  | none => (-1, st, false)
  | some (off, stop) =>
    let st1 := { st with iname_off := off, iname_end := stop }
    if !env.open_ok then (-1, st1, true)
    else if !env.shrink_ok then (-1, st1, true)
    else if !env.expand_ok then (-1, st1, true)
    else if !env.mmap_ok then (-1, st1, true)
    else (0, { st1 with mem := zeroMem, shm_iname_off := SHM_COUNT_SIZE, insns := [] }, true)

end insncounts

namespace insncounts

/-- The key of an option string: the text before the first `=`. -/
def keyOf (opt : List Byte) : Option (List Byte) := (g_strsplit_eq opt).head?

/-- The value of an option string: the text between the first `=` and the next
one (or the end), if there is an `=`. -/
def valueOf (opt : List Byte) : Option (List Byte) := (g_strsplit_eq opt).tail.head?

/-- An option whose key is `low` or `high` and that has a value. -/
def keyed (opt : List Byte) : Bool :=
  (keyOf opt = some (bytes "low") || keyOf opt = some (bytes "high")) && (valueOf opt).isSome

/-- The number read from the value of the last option of `argv` with key `key`;
`d` when no option has this key. -/
def lastValue (key : List Byte) (d : Nat) (argv : List (List Byte)) : Nat :=
  match (argv.filter fun o => decide (keyOf o = some key)).getLast? with
  | some o => g_ascii_strtoull16 ((valueOf o).getD [])
  | none => d

/-- The variables after the address bounds have been set from the options
`argv`. -/
def withBounds (st : State) (argv : List (List Byte)) : State :=
  { st with
      low_bound := lastValue (bytes "low") st.low_bound argv
      high_bound := lastValue (bytes "high") st.high_bound argv }

end insncounts

namespace insncounts

/-- The three stores of `allocate_slot` (lines 139, 140 and 143) in program
order: whether the store is the copy of the name, its first byte offset in the
mapping and its number of bytes. -/
def allocate_slot_writes (st : State) (name : List Byte) : List (Bool × Nat × Nat) :=
  [(false, st.shm_count_off + 8, 8), (false, st.shm_count_off, 8),
   (true, st.shm_iname_off, name.length + 1)]

/-- The stores attempted while the tokens are resolved in order (lines 134-150
for each): none for a token found in the table, those of `allocate_slot` for a
new one. -/
def resolveAll_writes (st : State) : List (List Byte) → List (Bool × Nat × Nat)
  | [] => []
  | name :: rest =>
    match g_hash_table_lookup st.mem st.insns name with
    | some _ => resolveAll_writes st rest
    | none =>
      allocate_slot_writes st name ++
        (match allocate_slot st name with
         | some r => resolveAll_writes r.1 rest
         | none => [])

/-- A two-byte mnemonic for every number below 8192, different for different
numbers and free of NUL. -/
def mnemonic8192 (k : Nat) : List Byte := [Fin.ofNat (k / 128 + 1), Fin.ofNat (k % 128 + 1)]

/-- A list of 8192 distinct mnemonics. -/
def names8192 : List (List Byte) := (List.range 8192).map mnemonic8192

end insncounts

namespace insncountsctl

/-- The offsets of the slots whose `iname_off` the loop of `main` (lines 56-70)
reads, when it stands at offset `off` with `n` slots of the count region still
ahead and no read of a name faults. -/
def walk_slots (reset : Bool) : Nat → Nat → Mem → List Nat
  | 0, _, _ => []
  | n + 1, off, m =>
    off :: (if readU64 m (off + 8) = 0 then []
      else walk_slots reset n (off + sizeof_Counter) (if reset then writeU64 m off 0 else m))

end insncountsctl

/-! ## Memory lemmas -/

theorem readBytes_length (m : Mem) (a n : Nat) : (readBytes m a n).length = n := by
  induction n generalizing a with
  | zero => rfl
  | succ n ih => simp [readBytes, ih]

theorem readBytes_getElem (m : Mem) (a n i : Nat) (h : i < (readBytes m a n).length) :
    (readBytes m a n)[i] = m (a + i) := by
  induction n generalizing a i with
  | zero => simp [readBytes] at h
  | succ n ih =>
    cases i with
    | zero => simp [readBytes]
    | succ i =>
      simp only [readBytes, List.getElem_cons_succ]
      rw [ih]
      congr 1
      omega

theorem readBytes_congr {m1 m2 : Mem} {a n : Nat}
    (h : ∀ x, a ≤ x → x < a + n → m1 x = m2 x) : readBytes m1 a n = readBytes m2 a n := by
  apply List.ext_getElem
  · simp [readBytes_length]
  · intro i h1 h2
    rw [readBytes_getElem, readBytes_getElem]
    rw [readBytes_length] at h1
    exact h _ (by omega) (by omega)

theorem readBytes_eq_iff (m : Mem) (a : Nat) (l : List Byte) :
    readBytes m a l.length = l ↔ ∀ i (h : i < l.length), m (a + i) = l[i] := by
  constructor
  · intro h i hi
    have h2 : i < (readBytes m a l.length).length := by rw [readBytes_length]; exact hi
    rw [← readBytes_getElem m a l.length i h2]
    simp [h]
  · intro h
    apply List.ext_getElem
    · simp [readBytes_length]
    · intro i h1 h2
      rw [readBytes_getElem]
      exact h i h2

theorem writeBytes_outside (m : Mem) (a : Nat) (src : List Byte) (x : Nat)
    (h : x < a ∨ a + src.length ≤ x) : writeBytes m a src x = m x := by
  unfold writeBytes
  rw [if_neg]
  omega

theorem writeBytes_inside (m : Mem) (a : Nat) (src : List Byte) (i : Nat) (h : i < src.length) :
    writeBytes m a src (a + i) = src[i] := by
  unfold writeBytes
  rw [if_pos (by omega)]
  simp [h]

theorem readBytes_writeBytes_self (m : Mem) (a : Nat) (src : List Byte) :
    readBytes (writeBytes m a src) a src.length = src := by
  rw [readBytes_eq_iff]
  intro i h
  exact writeBytes_inside m a src i h

theorem readBytes_writeBytes_disjoint (m : Mem) (a : Nat) (src : List Byte) (b n : Nat)
    (h : b + n ≤ a ∨ a + src.length ≤ b) :
    readBytes (writeBytes m a src) b n = readBytes m b n := by
  apply readBytes_congr
  intro x h1 h2
  apply writeBytes_outside
  omega

theorem toLE_length (n v : Nat) : (toLE n v).length = n := by
  induction n generalizing v with
  | zero => rfl
  | succ n ih => simp [toLE, ih]

theorem fromLE_toLE (n v : Nat) : fromLE (toLE n v) = v % 256 ^ n := by
  induction n generalizing v with
  | zero => simp [toLE, fromLE, Nat.mod_one]
  | succ n ih =>
    simp only [toLE, fromLE, ih]
    rw [pow_succ, Nat.mul_comm (256 ^ n) 256, Nat.mod_mul]
    simp [Fin.ofNat]

theorem readU64_congr {m1 m2 : Mem} {a : Nat}
    (h : ∀ x, a ≤ x → x < a + 8 → m1 x = m2 x) : readU64 m1 a = readU64 m2 a := by
  unfold readU64
  rw [readBytes_congr h]

theorem readU64_writeBytes_disjoint (m : Mem) (a : Nat) (src : List Byte) (b : Nat)
    (h : b + 8 ≤ a ∨ a + src.length ≤ b) :
    readU64 (writeBytes m a src) b = readU64 m b := by
  unfold readU64
  rw [readBytes_writeBytes_disjoint _ _ _ _ _ h]

theorem readU64_writeU64_self (m : Mem) (a v : Nat) :
    readU64 (writeU64 m a v) a = v % 2 ^ 64 := by
  unfold readU64 writeU64
  have h := readBytes_writeBytes_self m a (toLE 8 v)
  rw [toLE_length] at h
  rw [h, fromLE_toLE]
  norm_num

theorem readU64_writeU64_disjoint (m : Mem) (a v b : Nat) (h : b + 8 ≤ a ∨ a + 8 ≤ b) :
    readU64 (writeU64 m a v) b = readU64 m b := by
  unfold writeU64
  apply readU64_writeBytes_disjoint
  rw [toLE_length]
  exact h

theorem writeU64_outside (m : Mem) (a v x : Nat) (h : x < a ∨ a + 8 ≤ x) :
    writeU64 m a v x = m x := by
  unfold writeU64
  apply writeBytes_outside
  rw [toLE_length]
  exact h

theorem readU64_zero_of_zero (m : Mem) (a : Nat) (h : ∀ x, a ≤ x → x < a + 8 → m x = 0) :
    readU64 m a = 0 := by
  have h2 : readU64 m a = readU64 zeroMem a := readU64_congr (fun x h1 h2 => by rw [h x h1 h2]; rfl)
  rw [h2]
  rfl

theorem store_eq_some (m : Mem) (a : Nat) (src : List Byte) (h : a + src.length ≤ SHM_TOTAL_SIZE) :
    store m a src = some (writeBytes m a src) := by
  unfold store
  rw [if_pos h]

theorem storeU64_eq_some (m : Mem) (a v : Nat) (h : a + 8 ≤ SHM_TOTAL_SIZE) :
    storeU64 m a v = some (writeU64 m a v) := by
  unfold storeU64 writeU64
  apply store_eq_some
  rw [toLE_length]
  exact h

/-! ## C strings in the mapping -/

theorem g_str_equal_iff (m : Mem) (key : Nat) (name : List Byte) (hn : (0 : Byte) ∉ name) :
    g_str_equal m key name = true ↔ readBytes m key (name.length + 1) = name ++ [0] := by
  induction name generalizing key with
  | nil => simp [g_str_equal, readBytes]
  | cons b t ih =>
    have hb : b ≠ 0 := fun h => hn (by simp [h])
    have ht : (0 : Byte) ∉ t := fun h => hn (by simp [h])
    simp only [g_str_equal, if_neg hb, Bool.and_eq_true, decide_eq_true_eq, ih (key + 1) ht]
    simp [readBytes]

theorem readCStrAux_eq (m : Mem) (name : List Byte) (hn : (0 : Byte) ∉ name) (a fuel : Nat)
    (hf : name.length < fuel) (h : readBytes m a (name.length + 1) = name ++ [0]) :
    readCStrAux m fuel a = some name := by
  induction name generalizing a fuel with
  | nil =>
    cases fuel with
    | zero => simp at hf
    | succ f =>
      simp [readBytes] at h
      simp [readCStrAux, h]
  | cons b t ih =>
    have hb : b ≠ 0 := fun h => hn (by simp [h])
    have ht : (0 : Byte) ∉ t := fun h => hn (by simp [h])
    cases fuel with
    | zero => simp at hf
    | succ f =>
      simp only [readBytes, List.cons_append, List.cons.injEq, List.length_cons] at h
      simp only [List.length_cons] at hf
      simp only [readCStrAux, h.1, if_neg hb]
      rw [ih ht (a + 1) f (by omega) h.2]
      rfl

theorem readCStr_eq (m : Mem) (name : List Byte) (hn : (0 : Byte) ∉ name) (a : Nat)
    (hf : a + name.length < SHM_TOTAL_SIZE) (h : readBytes m a (name.length + 1) = name ++ [0]) :
    readCStr m a = some name := by
  unfold readCStr
  exact readCStrAux_eq m name hn a _ (by omega) h

/-! ## The layout invariant -/

namespace insncounts

theorem totalBytes_append (xs ys : List (List Byte)) :
    totalBytes (xs ++ ys) = totalBytes xs + totalBytes ys := by
  simp [totalBytes]

theorem totalBytes_take_succ (names : List (List Byte)) (k : Nat) (h : k < names.length) :
    totalBytes (names.take (k + 1)) = totalBytes (names.take k) + (names[k].length + 1) := by
  rw [List.take_succ, totalBytes_append]
  simp [List.getElem?_eq_getElem h, totalBytes]

theorem totalBytes_take_le (names : List (List Byte)) (k : Nat) :
    totalBytes (names.take k) ≤ totalBytes names := by
  conv => rhs; rw [← List.take_append_drop k names]
  rw [totalBytes_append]
  omega

theorem nameOff_succ (names : List (List Byte)) (k : Nat) (h : k < names.length) :
    nameOff names (k + 1) = nameOff names k + (names[k].length + 1) := by
  unfold nameOff
  rw [totalBytes_take_succ names k h]
  omega

theorem nameOff_mono (names : List (List Byte)) {j k : Nat} (h : j ≤ k) :
    nameOff names j ≤ nameOff names k := by
  unfold nameOff
  have h1 : names.take j = (names.take k).take j := by
    rw [List.take_take, Nat.min_eq_left h]
  rw [h1]
  have := totalBytes_take_le (names.take k) j
  omega

theorem nameOff_length (names : List (List Byte)) :
    nameOff names names.length = SHM_COUNT_SIZE + totalBytes names := by
  simp [nameOff]

theorem nameOff_end_le (names : List (List Byte)) (k : Nat) (h : k < names.length) :
    nameOff names k + (names[k].length + 1) ≤ SHM_COUNT_SIZE + totalBytes names := by
  rw [← nameOff_succ names k h, ← nameOff_length]
  exact nameOff_mono names h

theorem nameOff_ge (names : List (List Byte)) (k : Nat) : SHM_COUNT_SIZE ≤ nameOff names k := by
  unfold nameOff
  omega

theorem nameOff_append (names : List (List Byte)) (name : List Byte) (k : Nat)
    (h : k ≤ names.length) : nameOff (names ++ [name]) k = nameOff names k := by
  unfold nameOff
  rw [List.take_append_of_le_length h]

theorem inv_fresh (o : Nat) (e : Byte) (lo hi : Nat) : Inv (fresh o e lo hi) [] where
  nodup := List.nodup_nil
  nonul := by simp
  count_off := rfl
  iname_off := rfl
  cap_count := by simp
  cap_iname := by simp [totalBytes]
  slot_off := by simp
  name_at := by simp
  unused := fun _ _ _ => rfl
  table := rfl

theorem lookup_none (m : Mem) (L : List (Nat × Nat)) (name : List Byte)
    (h : ∀ e ∈ L, g_str_equal m e.1 name = false) : g_hash_table_lookup m L name = none := by
  induction L with
  | nil => rfl
  | cons e rest ih =>
    obtain ⟨key, c⟩ := e
    have h1 := h (key, c) (by simp)
    simp only at h1
    simp only [g_hash_table_lookup, h1]
    exact ih (fun e he => h e (by simp [he]))

theorem lookup_some (m : Mem) (L : List (Nat × Nat)) (name : List Byte) (key c : Nat)
    (h1 : (key, c) ∈ L) (h2 : g_str_equal m key name = true)
    (h3 : ∀ e ∈ L, g_str_equal m e.1 name = true → e.2 = c) :
    g_hash_table_lookup m L name = some c := by
  induction L with
  | nil => simp at h1
  | cons e rest ih =>
    obtain ⟨key1, c1⟩ := e
    by_cases hk : g_str_equal m key1 name = true
    · have := h3 (key1, c1) (by simp) hk
      simp only at this
      simp [g_hash_table_lookup, hk, this]
    · have hne : (key, c) ≠ (key1, c1) := by
        intro heq
        simp only [Prod.mk.injEq] at heq
        rw [heq.1] at h2
        exact hk h2
      have hmem : (key, c) ∈ rest := by
        rcases List.mem_cons.mp h1 with h | h
        · exact absurd h hne
        · exact h
      simp only [Bool.not_eq_true] at hk
      simp only [g_hash_table_lookup, hk]
      exact ih hmem (fun e he => h3 e (by simp [he]))

theorem cstr_unique (m : Mem) (a : Nat) (l1 l2 : List Byte) (h1 : (0 : Byte) ∉ l1)
    (h2 : (0 : Byte) ∉ l2) (e1 : readBytes m a (l1.length + 1) = l1 ++ [0])
    (e2 : readBytes m a (l2.length + 1) = l2 ++ [0]) : l1 = l2 := by
  have r1 := readCStrAux_eq m l1 h1 a (l1.length + l2.length + 1) (by omega) e1
  have r2 := readCStrAux_eq m l2 h2 a (l1.length + l2.length + 1) (by omega) e2
  rw [r1] at r2
  exact Option.some.inj r2

theorem inv_mem_table {s : State} {names : List (List Byte)} (inv : Inv s names) (e : Nat × Nat) :
    e ∈ s.insns ↔ ∃ k, k < names.length ∧ e = (nameOff names k, 16 * k) := by
  rw [inv.table]
  simp only [List.mem_reverse, List.mem_map, List.mem_range]
  constructor
  · rintro ⟨k, hk, rfl⟩
    exact ⟨k, hk, rfl⟩
  · rintro ⟨k, hk, rfl⟩
    exact ⟨k, hk, rfl⟩

theorem inv_lookup_seen {s : State} {names : List (List Byte)} (inv : Inv s names) (k : Nat)
    (hk : k < names.length) : g_hash_table_lookup s.mem s.insns names[k] = some (16 * k) := by
  have hn : (0 : Byte) ∉ names[k] := inv.nonul _ (List.getElem_mem hk)
  apply lookup_some s.mem s.insns names[k] (nameOff names k) (16 * k)
  · exact (inv_mem_table inv _).mpr ⟨k, hk, rfl⟩
  · rw [g_str_equal_iff _ _ _ hn]
    exact inv.name_at k hk
  · intro e he heq
    obtain ⟨j, hj, rfl⟩ := (inv_mem_table inv _).mp he
    simp only at heq ⊢
    rw [g_str_equal_iff _ _ _ hn] at heq
    have hj0 : (0 : Byte) ∉ names[j] := inv.nonul _ (List.getElem_mem hj)
    have := cstr_unique s.mem (nameOff names j) _ _ hj0 hn (inv.name_at j hj) heq
    have hjk : j = k := (List.Nodup.getElem_inj_iff inv.nodup).mp this
    rw [hjk]

theorem inv_lookup_new {s : State} {names : List (List Byte)} (inv : Inv s names)
    (name : List Byte) (hn : (0 : Byte) ∉ name) (hnew : name ∉ names) :
    g_hash_table_lookup s.mem s.insns name = none := by
  apply lookup_none
  intro e he
  obtain ⟨j, hj, rfl⟩ := (inv_mem_table inv _).mp he
  simp only
  by_contra hc
  simp only [Bool.not_eq_false] at hc
  rw [g_str_equal_iff _ _ _ hn] at hc
  have hj0 : (0 : Byte) ∉ names[j] := inv.nonul _ (List.getElem_mem hj)
  have := cstr_unique s.mem (nameOff names j) _ _ hj0 hn (inv.name_at j hj) hc
  exact hnew (this ▸ List.getElem_mem hj)

theorem resolve_seen {s : State} {names : List (List Byte)} (inv : Inv s names) (k : Nat)
    (hk : k < names.length) : resolve s names[k] = some (s, 16 * k) := by
  unfold resolve
  rw [inv_lookup_seen inv k hk]

theorem allocate_slot_eq (s : State) (name : List Byte)
    (h1 : s.shm_count_off + 16 ≤ SHM_TOTAL_SIZE)
    (h2 : s.shm_iname_off + (name.length + 1) ≤ SHM_TOTAL_SIZE) :
    allocate_slot s name = some (allocState s name, s.shm_count_off) := by
  have e1 : ∀ m v, storeU64 m (s.shm_count_off + 8) v = some (writeU64 m (s.shm_count_off + 8) v) :=
    fun m v => storeU64_eq_some _ _ _ (by omega)
  have e2 : ∀ m v, storeU64 m s.shm_count_off v = some (writeU64 m s.shm_count_off v) :=
    fun m v => storeU64_eq_some _ _ _ (by omega)
  have e3 : ∀ m, store m s.shm_iname_off (name ++ [0]) = some (writeBytes m s.shm_iname_off (name ++ [0])) :=
    fun m => store_eq_some _ _ _ (by simpa using h2)
  simp only [allocate_slot, e1, e2, e3, Option.some_bind]
  rfl

theorem allocMem_outside (s : State) (name : List Byte) (x : Nat)
    (h1 : x < s.shm_count_off ∨ s.shm_count_off + 16 ≤ x)
    (h2 : x < s.shm_iname_off ∨ s.shm_iname_off + (name.length + 1) ≤ x) :
    allocMem s name x = s.mem x := by
  unfold allocMem
  rw [writeBytes_outside _ _ _ _ (by simpa using h2)]
  rw [writeU64_outside _ _ _ _ (by omega)]
  rw [writeU64_outside _ _ _ _ (by omega)]

theorem inv_alloc {s : State} {names : List (List Byte)} (inv : Inv s names) (name : List Byte)
    (hn : (0 : Byte) ∉ name) (hnew : name ∉ names)
    (hc : 16 * (names.length + 1) ≤ SHM_COUNT_SIZE)
    (hi : totalBytes names + (name.length + 1) ≤ SHM_INAME_SIZE) :
    Inv (allocState s name) (names ++ [name]) := by
  have hC : SHM_COUNT_SIZE = 131072 := rfl
  have hI : SHM_INAME_SIZE = 131072 := rfl
  have hco := inv.count_off
  have hio := inv.iname_off
  have hlen : (names ++ [name]).length = names.length + 1 := by simp
  have hget : ∀ k (h : k < names.length) (h2 : k < (names ++ [name]).length),
      (names ++ [name])[k] = names[k] :=
    fun k h _ => List.getElem_append_left h
  have hlast : ∀ (h2 : names.length < (names ++ [name]).length),
      (names ++ [name])[names.length] = name := by simp
  refine ⟨?_, ?_, ?_, ?_, ?_, ?_, ?_, ?_, ?_, ?_⟩
  · exact List.Nodup.append inv.nodup (List.nodup_singleton _) (by simpa using hnew)
  · intro n h
    rcases List.mem_append.mp h with h | h
    · exact inv.nonul n h
    · simp only [List.mem_singleton] at h
      rw [h]
      exact hn
  · simp only [allocState, sizeof_Counter, hlen]
    omega
  · simp only [allocState, totalBytes_append]
    simp only [totalBytes, List.map_cons, List.map_nil, List.sum_cons, List.sum_nil]
    simp only [totalBytes] at hio
    omega
  · rw [hlen]
    exact hc
  · rw [totalBytes_append]
    simp only [totalBytes, List.map_cons, List.map_nil, List.sum_cons, List.sum_nil]
    simp only [totalBytes] at hi
    omega
  · intro k hk
    rw [hlen] at hk
    rw [nameOff_append names name k (by omega)]
    by_cases hk2 : k < names.length
    · rw [← inv.slot_off k hk2]
      apply readU64_congr
      intro x h1 h2
      exact allocMem_outside s name x (by omega) (by omega)
    · have hk3 : k = names.length := by omega
      subst hk3
      simp only [allocState, allocMem]
      rw [readU64_writeBytes_disjoint _ _ _ _ (by omega)]
      rw [← hco, readU64_writeU64_disjoint _ _ _ _ (by omega), readU64_writeU64_self]
      rw [nameOff_length, hio]
      omega
  · intro k hk
    have hk1 := hk
    rw [hlen] at hk1
    rw [nameOff_append names name k (by omega)]
    by_cases hk2 : k < names.length
    · rw [hget k hk2 hk, ← inv.name_at k hk2]
      apply readBytes_congr
      intro x h1 h2
      have h3 := nameOff_end_le names k hk2
      have h4 := nameOff_ge names k
      exact allocMem_outside s name x (by omega) (by omega)
    · have hk3 : k = names.length := by omega
      subst hk3
      rw [hlast hk, nameOff_length, ← hio]
      simp only [allocState, allocMem]
      have := readBytes_writeBytes_self
        (writeU64 (writeU64 s.mem (s.shm_count_off + 8) s.shm_iname_off) s.shm_count_off 0)
        s.shm_iname_off (name ++ [0])
      simpa using this
  · intro a h1 h2
    rw [hlen] at h1
    simp only [allocState]
    rw [allocMem_outside s name a (by omega) (by omega)]
    exact inv.unused a (by omega) h2
  · simp only [allocState, hlen, List.range_succ, List.map_append, List.map_cons, List.map_nil,
      List.reverse_append, List.reverse_cons, List.reverse_nil, List.nil_append,
      List.singleton_append, inv.table]
    rw [nameOff_append names name _ (le_refl _), nameOff_length, hio, hco]
    congr 2
    apply List.map_congr_left
    intro k hk
    rw [nameOff_append names name k (le_of_lt (List.mem_range.mp hk))]

theorem alloc_count_old {s : State} {names : List (List Byte)} (inv : Inv s names)
    (name : List Byte) (k : Nat) (hk : k < names.length) :
    readU64 (allocState s name).mem (16 * k) = readU64 s.mem (16 * k) := by
  have hC : SHM_COUNT_SIZE = 131072 := rfl
  have h1 := inv.count_off
  have h2 := inv.iname_off
  have h3 := inv.cap_count
  apply readU64_congr
  intro x hx1 hx2
  exact allocMem_outside s name x (by omega) (by omega)

theorem alloc_count_new {s : State} {names : List (List Byte)} (inv : Inv s names)
    (name : List Byte) (hc : 16 * (names.length + 1) ≤ SHM_COUNT_SIZE) :
    readU64 (allocState s name).mem (16 * names.length) = 0 := by
  have hC : SHM_COUNT_SIZE = 131072 := rfl
  have h1 := inv.count_off
  have h2 := inv.iname_off
  simp only [allocState, allocMem]
  rw [readU64_writeBytes_disjoint _ _ _ _ (by omega), ← h1, readU64_writeU64_self]
  rfl

theorem resolve_new {s : State} {names : List (List Byte)} (inv : Inv s names) (name : List Byte)
    (hn : (0 : Byte) ∉ name) (hnew : name ∉ names)
    (hc : 16 * (names.length + 1) ≤ SHM_COUNT_SIZE)
    (hi : totalBytes names + (name.length + 1) ≤ SHM_INAME_SIZE) :
    resolve s name = some (allocState s name, 16 * names.length) := by
  have hC : SHM_COUNT_SIZE = 131072 := rfl
  have hI : SHM_INAME_SIZE = 131072 := rfl
  have hT : SHM_TOTAL_SIZE = 262144 := rfl
  unfold resolve
  rw [inv_lookup_new inv name hn hnew]
  simp only
  rw [allocate_slot_eq s name (by rw [inv.count_off]; omega) (by rw [inv.iname_off]; omega),
    inv.count_off]

theorem firstSeen_prefix (acc toks : List (List Byte)) :
    ∃ ext, firstSeen acc toks = acc ++ ext := by
  induction toks generalizing acc with
  | nil => exact ⟨[], by simp [firstSeen]⟩
  | cons t rest ih =>
    simp only [firstSeen]
    by_cases h : t ∈ acc
    · rw [if_pos h]
      exact ih acc
    · rw [if_neg h]
      obtain ⟨ext, he⟩ := ih (acc ++ [t])
      exact ⟨[t] ++ ext, by rw [he, List.append_assoc]⟩

theorem firstSeen_length_le (acc toks : List (List Byte)) :
    acc.length ≤ (firstSeen acc toks).length := by
  obtain ⟨ext, he⟩ := firstSeen_prefix acc toks
  rw [he, List.length_append]
  omega

theorem firstSeen_totalBytes_le (acc toks : List (List Byte)) :
    totalBytes acc ≤ totalBytes (firstSeen acc toks) := by
  obtain ⟨ext, he⟩ := firstSeen_prefix acc toks
  rw [he, totalBytes_append]
  omega

theorem firstSeen_of_subset (acc toks : List (List Byte)) (h : ∀ t ∈ toks, t ∈ acc) :
    firstSeen acc toks = acc := by
  induction toks with
  | nil => rfl
  | cons t rest ih =>
    simp only [firstSeen, if_pos (h t (by simp))]
    exact ih (fun t ht => h t (by simp [ht]))

theorem firstSeen_nodup (acc : List (List Byte)) (h : acc.Nodup) :
    ∀ toks, toks.Nodup → (∀ t ∈ toks, t ∉ acc) → firstSeen acc toks = acc ++ toks := by
  intro toks
  induction toks generalizing acc with
  | nil => intro _ _; simp [firstSeen]
  | cons t rest ih =>
    intro hnd hdis
    have ht : t ∉ acc := hdis t (by simp)
    simp only [firstSeen, if_neg ht]
    rw [List.nodup_cons] at hnd
    rw [ih (acc ++ [t]) (List.Nodup.append h (List.nodup_singleton _) (by simpa using ht)) hnd.2]
    · simp
    · intro x hx hmem
      rcases List.mem_append.mp hmem with h1 | h1
      · exact hdis x (by simp [hx]) h1
      · simp only [List.mem_singleton] at h1
        rw [h1] at hx
        exact hnd.1 hx

theorem mem_firstSeen (acc toks : List (List Byte)) (x : List Byte) :
    x ∈ firstSeen acc toks ↔ x ∈ acc ∨ x ∈ toks := by
  induction toks generalizing acc with
  | nil => simp [firstSeen]
  | cons t rest ih =>
    simp only [firstSeen]
    by_cases h : t ∈ acc
    · rw [if_pos h, ih]
      constructor
      · rintro (h1 | h1)
        · exact Or.inl h1
        · exact Or.inr (by simp [h1])
      · rintro (h1 | h1)
        · exact Or.inl h1
        · rcases List.mem_cons.mp h1 with h2 | h2
          · exact Or.inl (h2 ▸ h)
          · exact Or.inr h2
    · rw [if_neg h, ih]
      simp only [List.mem_append, List.mem_singleton, List.mem_cons]
      tauto

theorem resolveAll_append (s : State) (xs ys : List (List Byte)) :
    resolveAll s (xs ++ ys) = (resolveAll s xs).bind fun s1 => resolveAll s1 ys := by
  induction xs generalizing s with
  | nil => rfl
  | cons x rest ih =>
    simp only [List.cons_append, resolveAll]
    cases resolve s x with
    | none => rfl
    | some r => simp [ih]

theorem sameConfig_alloc (s : State) (name : List Byte) : SameConfig s (allocState s name) :=
  ⟨rfl, rfl, rfl, rfl⟩

theorem resolveAll_inv (toks : List (List Byte)) :
    ∀ (s : State) (names : List (List Byte)), Inv s names → (∀ t ∈ toks, (0 : Byte) ∉ t) →
      16 * (firstSeen names toks).length ≤ SHM_COUNT_SIZE →
      totalBytes (firstSeen names toks) ≤ SHM_INAME_SIZE →
      ∃ t, resolveAll s toks = some t ∧ Inv t (firstSeen names toks) ∧ SameConfig s t := by
  induction toks with
  | nil => intro s names inv _ _ _; exact ⟨s, rfl, inv, rfl, rfl, rfl, rfl⟩
  | cons t rest ih =>
    intro s names inv hn hc hi
    have hn2 : ∀ x ∈ rest, (0 : Byte) ∉ x := fun x hx => hn x (by simp [hx])
    simp only [firstSeen] at hc hi ⊢
    by_cases h : t ∈ names
    · rw [if_pos h] at hc hi ⊢
      obtain ⟨k, hk, rfl⟩ := List.getElem_of_mem h
      simp only [resolveAll, resolve_seen inv k hk, Option.some_bind]
      exact ih s names inv hn2 hc hi
    · rw [if_neg h] at hc hi ⊢
      have l1 := firstSeen_length_le (names ++ [t]) rest
      have l2 := firstSeen_totalBytes_le (names ++ [t]) rest
      rw [List.length_append] at l1
      rw [totalBytes_append] at l2
      simp only [List.length_singleton] at l1
      simp only [totalBytes, List.map_cons, List.map_nil, List.sum_cons, List.sum_nil] at l2
      have hi2 : totalBytes (firstSeen (names ++ [t]) rest) ≤ SHM_INAME_SIZE := hi
      simp only [totalBytes] at hi2
      have hc1 : 16 * (names.length + 1) ≤ SHM_COUNT_SIZE := by omega
      have hi1 : totalBytes names + (t.length + 1) ≤ SHM_INAME_SIZE := by
        simp only [totalBytes]
        omega
      have ht0 := hn t (by simp)
      simp only [resolveAll, resolve_new inv t ht0 h hc1 hi1, Option.some_bind]
      obtain ⟨u, hu, hinv, hcfg⟩ := ih (allocState s t) (names ++ [t])
        (inv_alloc inv t ht0 h hc1 hi1) hn2 hc hi
      exact ⟨u, hu, hinv, hcfg⟩

theorem resolveAll_seen {s : State} {names : List (List Byte)} (inv : Inv s names)
    (toks : List (List Byte)) (h : ∀ t ∈ toks, t ∈ names) : resolveAll s toks = some s := by
  induction toks with
  | nil => rfl
  | cons t rest ih =>
    have ht : t ∈ names := h t (by simp)
    have hrest : ∀ x ∈ rest, x ∈ names := fun x hx => h x (by simp [hx])
    obtain ⟨k, hk, rfl⟩ := List.getElem_of_mem ht
    simp only [resolveAll, resolve_seen inv k hk, Option.some_bind]
    exact ih hrest

theorem inv_layout {s : State} {names : List (List Byte)} (inv : Inv s names) :
    Layout s.mem names where
  nonul := inv.nonul
  cap_count := inv.cap_count
  cap_iname := inv.cap_iname
  slot_off := inv.slot_off
  name_at := inv.name_at
  sentinel := fun h => readU64_zero_of_zero _ _ (fun x h1 h2 => inv.unused x (by omega) (by
    have hC : SHM_COUNT_SIZE = 131072 := rfl
    omega))

theorem layout_of_agree {m m2 : Mem} {names : List (List Byte)} (lay : Layout m names)
    (h : ∀ x, (∀ i, i < names.length → x < 16 * i ∨ 16 * i + 8 ≤ x) → m2 x = m x) :
    Layout m2 names := by
  have hC : SHM_COUNT_SIZE = 131072 := rfl
  have hcap := lay.cap_count
  refine ⟨lay.nonul, lay.cap_count, lay.cap_iname, ?_, ?_, ?_⟩
  · intro k hk
    rw [← lay.slot_off k hk]
    apply readU64_congr
    intro x h1 h2
    apply h
    intro i _
    omega
  · intro k hk
    rw [← lay.name_at k hk]
    apply readBytes_congr
    intro x h1 h2
    apply h
    intro i hi
    have := nameOff_ge names k
    omega
  · intro hlt
    rw [← lay.sentinel hlt]
    apply readU64_congr
    intro x h1 h2
    apply h
    intro i hi
    omega

end insncounts

/-! ## The reader on a well-formed store -/

namespace insncountsctl

open insncounts

theorem countsFrom_succ (m : Mem) (j n : Nat) :
    countsFrom m j (n + 1) = readU64 m (16 * j) :: countsFrom m (j + 1) n := by
  unfold countsFrom
  rw [List.range_succ_eq_map, List.map_cons, List.map_map, Nat.add_zero]
  have h : ∀ i ∈ List.range n,
      ((fun i => readU64 m (16 * (j + i))) ∘ Nat.succ) i = (fun i => readU64 m (16 * (j + 1 + i))) i := by
    intro i _
    show readU64 m (16 * (j + (i + 1))) = readU64 m (16 * (j + 1 + i))
    rw [show j + (i + 1) = j + 1 + i by omega]
  rw [List.map_congr_left h]

theorem walk_report {m : Mem} {names : List (List Byte)} (lay : Layout m names) :
    ∀ (rest : List (List Byte)) (j f : Nat), j ≤ names.length → names.drop j = rest →
      16 * (j + f) = SHM_COUNT_SIZE →
      walk false f (16 * j) m = some (m, List.zip rest (countsFrom m j rest.length)) := by
  have hC : SHM_COUNT_SIZE = 131072 := rfl
  have hI : SHM_INAME_SIZE = 131072 := rfl
  have hT : SHM_TOTAL_SIZE = 262144 := rfl
  intro rest
  induction rest with
  | nil =>
    intro j f hle hd hf
    have hj : names.length ≤ j := List.drop_eq_nil_iff.mp hd
    cases f with
    | zero => rfl
    | succ f =>
      have hjl : j = names.length := by
        have := lay.cap_count
        omega
      subst hjl
      simp only [walk]
      rw [lay.sentinel (by omega)]
      rfl
  | cons n rest ih =>
    intro j f hle hd hf
    have hj : j < names.length := by
      by_contra hc
      rw [List.drop_eq_nil_of_le (by omega)] at hd
      exact List.noConfusion hd
    rw [List.drop_eq_getElem_cons hj] at hd
    have hn : names[j] = n := (List.cons.inj hd).1
    have hr : names.drop (j + 1) = rest := (List.cons.inj hd).2
    have hcap := lay.cap_count
    cases f with
    | zero => omega
    | succ f =>
      have hoff := lay.slot_off j hj
      have hge := nameOff_ge names j
      have hend := nameOff_end_le names j hj
      have hcapi := lay.cap_iname
      have hstr : readCStr m (nameOff names j) = some names[j] :=
        readCStr_eq m names[j] (lay.nonul _ (List.getElem_mem hj)) _ (by omega) (lay.name_at j hj)
      have hrec := ih (j + 1) f hj hr (by omega)
      have h16 : 16 * j + sizeof_Counter = 16 * (j + 1) := by
        simp only [sizeof_Counter]
        omega
      simp only [walk, hoff, h16]
      rw [if_neg (by omega)]
      simp only [Bool.false_eq_true, if_false, hstr, Option.some_bind, hrec, Option.map_some']
      rw [List.length_cons, countsFrom_succ, List.zip_cons_cons, hn]

theorem main_report {m : Mem} {names : List (List Byte)} (lay : Layout m names) :
    main 2 true true m = some (0, m, List.zip names (countsFrom m 0 names.length)) := by
  have h := walk_report lay names 0 (SHM_COUNT_SIZE / sizeof_Counter) (Nat.zero_le _) (by simp)
    (by decide)
  simp only [main]
  simp only [Nat.mul_zero] at h
  simp [h]

end insncountsctl

/-! ## Claims about the store -/

namespace insncounts

/-- C9. Dense packing by `allocate_slot`: starting from a fresh store, after any
sequence `toks` of tokens has been resolved (within capacity), a new token
`name` is the `k`-th distinct one, `k` being the number of distinct tokens of
`toks`; it gets the slot at offset `16 * k` with `count = 0` and `name_offset`
equal to `SHM_COUNT_SIZE` plus the lengths (each plus one) of the `k` earlier
names, the name and one NUL are written there, and the two growth offsets,
which stood at `16 * k` and at that name offset, advance by 16 and by
`length name + 1`. -/
theorem C9_allocate_slot_dense (o : Nat) (e : Byte) (lo hi : Nat) (toks : List (List Byte))
    (name : List Byte) (hn : ∀ t ∈ toks ++ [name], (0 : Byte) ∉ t) (hnew : name ∉ toks)
    (hc : 16 * ((firstSeen [] toks).length + 1) ≤ SHM_COUNT_SIZE)
    (hb : totalBytes (firstSeen [] toks) + (name.length + 1) ≤ SHM_INAME_SIZE) :
    ∃ s t, resolveAll (fresh o e lo hi) toks = some s ∧
      resolve s name = some (t, 16 * (firstSeen [] toks).length) ∧
      s.shm_count_off = 16 * (firstSeen [] toks).length ∧
      s.shm_iname_off = SHM_COUNT_SIZE + totalBytes (firstSeen [] toks) ∧
      readU64 t.mem (16 * (firstSeen [] toks).length) = 0 ∧
      readU64 t.mem (16 * (firstSeen [] toks).length + 8) =
        SHM_COUNT_SIZE + totalBytes (firstSeen [] toks) ∧
      readBytes t.mem (SHM_COUNT_SIZE + totalBytes (firstSeen [] toks)) (name.length + 1) =
        name ++ [0] ∧
      t.shm_count_off = s.shm_count_off + 16 ∧
      t.shm_iname_off = s.shm_iname_off + (name.length + 1) := by
  have hn1 : ∀ t ∈ toks, (0 : Byte) ∉ t := fun t ht => hn t (by simp [ht])
  have hn2 : (0 : Byte) ∉ name := hn name (by simp)
  obtain ⟨s, hs, inv, _⟩ := resolveAll_inv toks (fresh o e lo hi) [] (inv_fresh o e lo hi) hn1
    (by omega) (by omega)
  have hnew2 : name ∉ firstSeen [] toks := by
    rw [mem_firstSeen]
    simp [hnew]
  have inv2 := inv_alloc inv name hn2 hnew2 hc hb
  have hlen : (firstSeen [] toks ++ [name]).length = (firstSeen [] toks).length + 1 := by simp
  have hk : (firstSeen [] toks).length < (firstSeen [] toks ++ [name]).length := by omega
  refine ⟨s, allocState s name, hs, resolve_new inv name hn2 hnew2 hc hb, inv.count_off,
    inv.iname_off, alloc_count_new inv name hc, ?_, ?_, rfl, rfl⟩
  · rw [inv2.slot_off _ hk, nameOff_append _ _ _ (le_refl _), nameOff_length]
  · have h := inv2.name_at _ hk
    rw [nameOff_append _ _ _ (le_refl _), nameOff_length] at h
    simpa using h

/-- Witness of C9: the first mnemonic gets slot 0, and its name offset is the
start of the name region, 131072. -/
theorem C9_witness :
    ∃ s t, resolveAll (fresh 0 (byte ' ') 0 (2 ^ 64 - 1)) [] = some s ∧
      resolve s (bytes "add") = some (t, 16 * (firstSeen [] []).length) ∧
      s.shm_count_off = 16 * (firstSeen [] []).length ∧
      s.shm_iname_off = SHM_COUNT_SIZE + totalBytes (firstSeen [] []) ∧
      readU64 t.mem (16 * (firstSeen [] []).length) = 0 ∧
      readU64 t.mem (16 * (firstSeen [] []).length + 8) =
        SHM_COUNT_SIZE + totalBytes (firstSeen [] []) ∧
      readBytes t.mem (SHM_COUNT_SIZE + totalBytes (firstSeen [] [])) ((bytes "add").length + 1) =
        bytes "add" ++ [0] ∧
      t.shm_count_off = s.shm_count_off + 16 ∧
      t.shm_iname_off = s.shm_iname_off + ((bytes "add").length + 1) :=
  C9_allocate_slot_dense 0 (byte ' ') 0 (2 ^ 64 - 1) [] (bytes "add") (by decide) (by decide)
    (by decide) (by decide)

/-- C10. Monotonic name offsets: after any sequence of tokens has been resolved
on a fresh store within capacity, whenever slots `i` and `i + 1` are both
allocated the `name_offset` field of slot `i` is strictly less than that of
slot `i + 1`; the empty token is not excluded. -/
theorem C10_name_offsets_increase (o : Nat) (e : Byte) (lo hi : Nat) (toks : List (List Byte))
    (hn : ∀ t ∈ toks, (0 : Byte) ∉ t)
    (hc : 16 * (firstSeen [] toks).length ≤ SHM_COUNT_SIZE)
    (hb : totalBytes (firstSeen [] toks) ≤ SHM_INAME_SIZE) :
    ∃ s, resolveAll (fresh o e lo hi) toks = some s ∧
      ∀ i, 16 * (i + 1) + 16 ≤ s.shm_count_off →
        readU64 s.mem (16 * i + 8) < readU64 s.mem (16 * (i + 1) + 8) := by
  obtain ⟨s, hs, inv, _⟩ := resolveAll_inv toks (fresh o e lo hi) [] (inv_fresh o e lo hi) hn hc hb
  refine ⟨s, hs, ?_⟩
  intro i h
  rw [inv.count_off] at h
  have h1 : i < (firstSeen [] toks).length := by omega
  rw [inv.slot_off i h1, inv.slot_off (i + 1) (by omega), nameOff_succ _ i h1]
  omega

/-- Witness of C10, with the empty token allocated between two others. -/
theorem C10_witness :
    ∃ s, resolveAll (fresh 0 (byte ' ') 0 (2 ^ 64 - 1)) [bytes "add", [], bytes "sub", []] = some s ∧
      ∀ i, 16 * (i + 1) + 16 ≤ s.shm_count_off →
        readU64 s.mem (16 * i + 8) < readU64 s.mem (16 * (i + 1) + 8) :=
  C10_name_offsets_increase 0 (byte ' ') 0 (2 ^ 64 - 1) [bytes "add", [], bytes "sub", []]
    (by decide) (by decide) (by decide)

/-- C3. Idempotent allocation: after any sequence of tokens (with repeats, in
any order) has been resolved on a fresh store within capacity, the walk over
the occupied slots, from offset 0 up to the first slot whose `name_offset` is
0, names the distinct tokens resolved, each exactly once (in order of first
appearance); and resolving any tokens already resolved, any number of times,
leaves the whole state as it is, so no slot is added. -/
theorem C3_one_slot_per_mnemonic (o : Nat) (e : Byte) (lo hi : Nat) (toks : List (List Byte))
    (hn : ∀ t ∈ toks, (0 : Byte) ∉ t)
    (hc : 16 * (firstSeen [] toks).length ≤ SHM_COUNT_SIZE)
    (hb : totalBytes (firstSeen [] toks) ≤ SHM_INAME_SIZE) :
    ∃ s entries, resolveAll (fresh o e lo hi) toks = some s ∧
      insncountsctl.main 2 true true s.mem = some (0, s.mem, entries) ∧
      entries.map Prod.fst = firstSeen [] toks ∧
      (entries.map Prod.fst).Nodup ∧
      (∀ t, t ∈ entries.map Prod.fst ↔ t ∈ toks) ∧
      s.shm_count_off = 16 * entries.length ∧
      ∀ again, (∀ t ∈ again, t ∈ toks) → resolveAll s again = some s := by
  obtain ⟨s, hs, inv, _⟩ := resolveAll_inv toks (fresh o e lo hi) [] (inv_fresh o e lo hi) hn hc hb
  have hm := insncountsctl.main_report (inv_layout inv)
  have hl : (countsFrom s.mem 0 (firstSeen [] toks).length).length = (firstSeen [] toks).length := by
    simp [countsFrom]
  have hfst : (List.zip (firstSeen [] toks) (countsFrom s.mem 0 (firstSeen [] toks).length)).map
      Prod.fst = firstSeen [] toks := by
    rw [List.map_fst_zip]
    omega
  refine ⟨s, _, hs, hm, hfst, ?_, ?_, ?_, ?_⟩
  · rw [hfst]
    exact inv.nodup
  · intro t
    rw [hfst, mem_firstSeen]
    simp
  · rw [inv.count_off, List.length_zip, hl, Nat.min_self]
  · intro again h
    exact resolveAll_seen inv again (fun t ht => (mem_firstSeen [] toks t).mpr (Or.inr (h t ht)))

/-- Witness of C3: `add`, `sub`, `add`, `add` occupy two slots. -/
theorem C3_witness :
    ∃ s entries, resolveAll (fresh 0 (byte ' ') 0 (2 ^ 64 - 1))
        [bytes "add", bytes "sub", bytes "add", bytes "add"] = some s ∧
      insncountsctl.main 2 true true s.mem = some (0, s.mem, entries) ∧
      entries.map Prod.fst = firstSeen [] [bytes "add", bytes "sub", bytes "add", bytes "add"] ∧
      (entries.map Prod.fst).Nodup ∧
      (∀ t, t ∈ entries.map Prod.fst ↔ t ∈ [bytes "add", bytes "sub", bytes "add", bytes "add"]) ∧
      s.shm_count_off = 16 * entries.length ∧
      ∀ again, (∀ t ∈ again, t ∈ [bytes "add", bytes "sub", bytes "add", bytes "add"]) →
        resolveAll s again = some s :=
  C3_one_slot_per_mnemonic 0 (byte ' ') 0 (2 ^ 64 - 1)
    [bytes "add", bytes "sub", bytes "add", bytes "add"] (by decide) (by decide) (by decide)

/-- C2. Round trip between writer and reader: when `N` distinct mnemonics
(at most 8192 slots, at most 131072 name bytes with the terminators) are
allocated in order into a fresh all-zero store, and the mapping then carries
the counts `cs` in the `count` fields of these slots (it differs from the
writer's store in no other byte), the report-mode run of the reader returns 0
and prints exactly the `N` pairs `(name_i, c_i)` in allocation order. -/
theorem C2_round_trip (o : Nat) (e : Byte) (lo hi : Nat) (names : List (List Byte))
    (cs : List Nat) (hnd : names.Nodup) (hn : ∀ t ∈ names, (0 : Byte) ∉ t)
    (hlen : cs.length = names.length)
    (hc : names.length ≤ 8192) (hb : totalBytes names ≤ 131072) :
    ∃ s, resolveAll (fresh o e lo hi) names = some s ∧
      ∀ m : Mem,
        (∀ x, (∀ i, i < names.length → x < 16 * i ∨ 16 * i + 8 ≤ x) → m x = s.mem x) →
        (∀ i (h : i < cs.length), readU64 m (16 * i) = cs[i]) →
        insncountsctl.main 2 true true m = some (0, m, List.zip names cs) := by
  have hfs : firstSeen [] names = names := by
    rw [firstSeen_nodup [] List.nodup_nil names hnd (by simp)]
    simp
  have hC : SHM_COUNT_SIZE = 131072 := rfl
  have hI : SHM_INAME_SIZE = 131072 := rfl
  obtain ⟨s, hs, inv, _⟩ := resolveAll_inv names (fresh o e lo hi) [] (inv_fresh o e lo hi) hn
    (by rw [hfs]; omega) (by rw [hfs]; omega)
  rw [hfs] at inv
  refine ⟨s, hs, ?_⟩
  intro m hframe hcounts
  have lay := layout_of_agree (inv_layout inv) hframe
  rw [insncountsctl.main_report lay]
  have hcs : countsFrom m 0 names.length = cs := by
    apply List.ext_getElem
    · simp [countsFrom, hlen]
    · intro i h1 h2
      simp only [countsFrom, List.getElem_map, List.getElem_range, Nat.zero_add]
      exact hcounts i h2
  rw [hcs]

/-- Witness of C2: `add` and `sub` carrying the counts 3 and 2^64 - 1. -/
theorem C2_witness :
    ∃ s, resolveAll (fresh 0 (byte ' ') 0 (2 ^ 64 - 1)) [bytes "add", bytes "sub"] = some s ∧
      ∀ m : Mem,
        (∀ x, (∀ i, i < [bytes "add", bytes "sub"].length → x < 16 * i ∨ 16 * i + 8 ≤ x) →
          m x = s.mem x) →
        (∀ i (h : i < [3, 2 ^ 64 - 1].length), readU64 m (16 * i) = [3, 2 ^ 64 - 1][i]) →
        insncountsctl.main 2 true true m =
          some (0, m, List.zip [bytes "add", bytes "sub"] [3, 2 ^ 64 - 1]) :=
  C2_round_trip 0 (byte ' ') 0 (2 ^ 64 - 1) [bytes "add", bytes "sub"] [3, 2 ^ 64 - 1]
    (by decide) (by decide) (by decide) (by decide) (by decide)

end insncounts

/-! ## Claims about the classifier -/

namespace insncounts

theorem strlen_eq_length (l : List Byte) (h : (0 : Byte) ∉ l) : strlen l = l.length := by
  induction l with
  | nil => rfl
  | cons b t ih =>
    have hb : b ≠ 0 := fun hb => h (by simp [hb])
    have ht : (0 : Byte) ∉ t := fun ht => h (by simp [ht])
    simp [strlen, hb, ih ht]

theorem strchr_append (tok post : List Byte) (c : Byte) (h0 : (0 : Byte) ∉ tok) (hc : c ∉ tok) :
    strchr (tok ++ c :: post) c = some tok.length := by
  induction tok with
  | nil => simp [strchr]
  | cons b t ih =>
    have hb0 : b ≠ 0 := fun hb => h0 (by simp [hb])
    have hbc : b ≠ c := fun hb => hc (by simp [hb])
    have ht0 : (0 : Byte) ∉ t := fun ht => h0 (by simp [ht])
    have htc : c ∉ t := fun ht => hc (by simp [ht])
    simp [strchr, hb0, hbc, ih ht0 htc]

theorem strchr_take_nonul (l : List Byte) (c : Byte) (p : Nat) (h : strchr l c = some p) :
    (0 : Byte) ∉ l.take p := by
  induction l generalizing p with
  | nil => simp
  | cons b t ih =>
    simp only [strchr] at h
    by_cases hbc : b = c
    · rw [if_pos hbc] at h
      cases h
      simp
    · rw [if_neg hbc] at h
      by_cases hb0 : b = 0
      · rw [if_pos hb0] at h
        cases h
      · rw [if_neg hb0] at h
        cases hq : strchr t c with
        | none => rw [hq] at h; cases h
        | some q =>
          rw [hq] at h
          simp only [Option.map_some', Option.some.injEq] at h
          subst h
          simp only [List.take_succ_cons, List.mem_cons, not_or]
          exact ⟨fun h => hb0 h.symm, ih q hq⟩

theorem mnemonic_nonul (o : Nat) (e : Byte) (d tok : List Byte) (h : mnemonic o e d = some tok) :
    (0 : Byte) ∉ tok := by
  unfold mnemonic at h
  by_cases ho : o ≤ strlen d
  · rw [if_pos ho] at h
    simp only at h
    cases hq : strchr (List.drop o d) e with
    | none => rw [hq] at h; cases h
    | some q =>
      rw [hq] at h
      simp only [Option.some.injEq] at h
      rw [← h]
      exact strchr_take_nonul _ _ _ hq
  · rw [if_neg ho] at h
    cases h

theorem mnemonic_slice (pre tok post : List Byte) (c : Byte)
    (h0 : (0 : Byte) ∉ pre ++ tok ++ c :: post) (hc : c ∉ tok) :
    mnemonic pre.length c (pre ++ tok ++ c :: post) = some tok := by
  have h1 : (0 : Byte) ∉ tok := fun h => h0 (by simp [h])
  unfold mnemonic
  rw [strlen_eq_length _ h0, if_pos (by simp)]
  simp only [List.append_assoc, List.drop_left, strchr_append tok post c h1 hc]
  rw [List.take_left]

theorem vcpu_tb_trans_append (s : State) (xs ys : List Insn) :
    vcpu_tb_trans s (xs ++ ys) =
      (vcpu_tb_trans s xs).bind fun r =>
        (vcpu_tb_trans r.1 ys).map fun r2 => (r2.1, r.2 ++ r2.2) := by
  induction xs generalizing s with
  | nil =>
    simp only [List.nil_append, vcpu_tb_trans, Option.some_bind]
    cases vcpu_tb_trans s ys <;> simp
  | cons x rest ih =>
    rw [List.cons_append]
    simp only [vcpu_tb_trans]
    rcases classify s x with _ | r
    · rfl
    · simp only [Option.some_bind]
      rw [ih]
      rcases vcpu_tb_trans r.1 rest with _ | r1
      · rfl
      · simp only [Option.some_bind]
        rcases vcpu_tb_trans r1.1 ys with _ | r2
        · rfl
        · rfl

theorem classify_in_window (st : State) (insn : Insn) (tok : List Byte)
    (hA : insn.disas.headD 0 ≠ byte 'A')
    (hm : mnemonic st.iname_off st.iname_end insn.disas = some tok)
    (h : st.low_bound ≤ insn.vaddr ∧ insn.vaddr ≤ st.high_bound) :
    classify st insn = (resolve st tok).map fun r => (r.1, some r.2) := by
  unfold classify
  rw [if_neg (by omega), if_pos hA, hm]
  simp only [Option.some_bind]
  rcases resolve st tok with _ | r
  · rfl
  · rfl

theorem classify_out_of_window (st : State) (insn : Insn)
    (h : ¬ (st.low_bound ≤ insn.vaddr ∧ insn.vaddr ≤ st.high_bound)) :
    classify st insn = some (st, none) := by
  unfold classify
  rw [if_pos (by omega)]

/-- C5. Inclusive window bounds.  For an instruction whose text is not the
out-of-bounds diagnostic and has the mnemonic token `tok`: inside the window
`low_bound <= vaddr <= high_bound` the instruction is classified, that is, `tok`
is resolved and the slot's `count` is registered as the inline-add target;
outside the window nothing happens (same state, no registration).  So, when the
resolve step does not fault, a target is registered if and only if the address
lies in the window; an address equal to `low_bound` or to `high_bound` is
inside, and one unit below `low_bound` or above `high_bound` is outside. -/
theorem C5_inclusive_window (st : State) (insn : Insn) (tok : List Byte)
    (hA : insn.disas.headD 0 ≠ byte 'A')
    (hm : mnemonic st.iname_off st.iname_end insn.disas = some tok) :
    (st.low_bound ≤ insn.vaddr ∧ insn.vaddr ≤ st.high_bound →
      classify st insn = (resolve st tok).map fun r => (r.1, some r.2)) ∧
    (¬ (st.low_bound ≤ insn.vaddr ∧ insn.vaddr ≤ st.high_bound) →
      classify st insn = some (st, none)) ∧
    ((resolve st tok).isSome →
      ((∃ t slot, classify st insn = some (t, some slot)) ↔
        (st.low_bound ≤ insn.vaddr ∧ insn.vaddr ≤ st.high_bound))) ∧
    (st.low_bound ≤ st.high_bound →
      insn.vaddr = st.low_bound ∨ insn.vaddr = st.high_bound →
      classify st insn = (resolve st tok).map fun r => (r.1, some r.2)) ∧
    (insn.vaddr + 1 = st.low_bound ∨ insn.vaddr = st.high_bound + 1 →
      classify st insn = some (st, none)) := by
  have hin := classify_in_window st insn tok hA hm
  have hout := classify_out_of_window st insn
  refine ⟨hin, hout, ?_, ?_, ?_⟩
  · intro hr
    constructor
    · rintro ⟨t, slot, hcl⟩
      by_contra hw
      rw [hout hw] at hcl
      simp at hcl
    · intro hw
      rw [hin hw]
      obtain ⟨r, hr2⟩ := Option.isSome_iff_exists.mp hr
      exact ⟨r.1, r.2, by rw [hr2]; rfl⟩
  · intro hle h
    exact hin (by omega)
  · intro h
    exact hout (by omega)

/-- Witness of C5: the window `[0x1000, 0x2000]` and an `add` at its lower
bound. -/
theorem C5_witness :
    ((fresh 0 (byte ' ') 4096 8192).low_bound ≤ (Insn.mk 4096 (bytes "add x1, x2, x3")).vaddr ∧
        (Insn.mk 4096 (bytes "add x1, x2, x3")).vaddr ≤ (fresh 0 (byte ' ') 4096 8192).high_bound →
      classify (fresh 0 (byte ' ') 4096 8192) (Insn.mk 4096 (bytes "add x1, x2, x3")) =
        (resolve (fresh 0 (byte ' ') 4096 8192) (bytes "add")).map fun r => (r.1, some r.2)) ∧
    (¬ ((fresh 0 (byte ' ') 4096 8192).low_bound ≤ (Insn.mk 4096 (bytes "add x1, x2, x3")).vaddr ∧
        (Insn.mk 4096 (bytes "add x1, x2, x3")).vaddr ≤ (fresh 0 (byte ' ') 4096 8192).high_bound) →
      classify (fresh 0 (byte ' ') 4096 8192) (Insn.mk 4096 (bytes "add x1, x2, x3")) =
        some (fresh 0 (byte ' ') 4096 8192, none)) ∧
    ((resolve (fresh 0 (byte ' ') 4096 8192) (bytes "add")).isSome →
      ((∃ t slot, classify (fresh 0 (byte ' ') 4096 8192)
          (Insn.mk 4096 (bytes "add x1, x2, x3")) = some (t, some slot)) ↔
        ((fresh 0 (byte ' ') 4096 8192).low_bound ≤ (Insn.mk 4096 (bytes "add x1, x2, x3")).vaddr ∧
          (Insn.mk 4096 (bytes "add x1, x2, x3")).vaddr ≤
            (fresh 0 (byte ' ') 4096 8192).high_bound))) ∧
    ((fresh 0 (byte ' ') 4096 8192).low_bound ≤ (fresh 0 (byte ' ') 4096 8192).high_bound →
      (Insn.mk 4096 (bytes "add x1, x2, x3")).vaddr = (fresh 0 (byte ' ') 4096 8192).low_bound ∨
        (Insn.mk 4096 (bytes "add x1, x2, x3")).vaddr = (fresh 0 (byte ' ') 4096 8192).high_bound →
      classify (fresh 0 (byte ' ') 4096 8192) (Insn.mk 4096 (bytes "add x1, x2, x3")) =
        (resolve (fresh 0 (byte ' ') 4096 8192) (bytes "add")).map fun r => (r.1, some r.2)) ∧
    ((Insn.mk 4096 (bytes "add x1, x2, x3")).vaddr + 1 = (fresh 0 (byte ' ') 4096 8192).low_bound ∨
        (Insn.mk 4096 (bytes "add x1, x2, x3")).vaddr =
          (fresh 0 (byte ' ') 4096 8192).high_bound + 1 →
      classify (fresh 0 (byte ' ') 4096 8192) (Insn.mk 4096 (bytes "add x1, x2, x3")) =
        some (fresh 0 (byte ' ') 4096 8192, none)) :=
  C5_inclusive_window (fresh 0 (byte ' ') 4096 8192) (Insn.mk 4096 (bytes "add x1, x2, x3"))
    (bytes "add") (by decide) (by decide)

/-- C7. Mnemonic slicing: for the slicing rule of the state (start column
`iname_off`, terminator `iname_end`) and a text (a C string) that reads `pre`,
then `tok`, then the terminator, then `post`, where `pre` fills the columns
before the start column and the terminator does not occur in `tok`, the token
is exactly `tok`: the substring from the start column up to, not including,
the first terminator at or after it.  This token is what an in-window
instruction resolves. -/
theorem C7_mnemonic_slice (st : State) (a : Nat) (pre tok post : List Byte)
    (hs : pre.length = st.iname_off)
    (h0 : (0 : Byte) ∉ pre ++ tok ++ st.iname_end :: post)
    (hc : st.iname_end ∉ tok) :
    mnemonic st.iname_off st.iname_end (pre ++ tok ++ st.iname_end :: post) = some tok ∧
    (st.low_bound ≤ a ∧ a ≤ st.high_bound →
      (pre ++ tok ++ st.iname_end :: post).headD 0 ≠ byte 'A' →
      classify st (Insn.mk a (pre ++ tok ++ st.iname_end :: post)) =
        (resolve st tok).map fun r => (r.1, some r.2)) := by
  have hm : mnemonic st.iname_off st.iname_end (pre ++ tok ++ st.iname_end :: post) = some tok := by
    rw [← hs]
    exact mnemonic_slice pre tok post st.iname_end h0 hc
  refine ⟨hm, ?_⟩
  intro hw hA
  exact classify_in_window st (Insn.mk a (pre ++ tok ++ st.iname_end :: post)) tok hA hm hw

/-- Witness of C7: under the offset-0, space-terminated rule the text
`add x1, x2, x3` yields the token `add`. -/
theorem C7_witness :
    mnemonic (fresh 0 (byte ' ') 0 (2 ^ 64 - 1)).iname_off (fresh 0 (byte ' ') 0 (2 ^ 64 - 1)).iname_end
        ([] ++ bytes "add" ++ (fresh 0 (byte ' ') 0 (2 ^ 64 - 1)).iname_end :: bytes "x1, x2, x3") =
      some (bytes "add") ∧
    ((fresh 0 (byte ' ') 0 (2 ^ 64 - 1)).low_bound ≤ 4096 ∧
        4096 ≤ (fresh 0 (byte ' ') 0 (2 ^ 64 - 1)).high_bound →
      ([] ++ bytes "add" ++ (fresh 0 (byte ' ') 0 (2 ^ 64 - 1)).iname_end ::
        bytes "x1, x2, x3").headD 0 ≠ byte 'A' →
      classify (fresh 0 (byte ' ') 0 (2 ^ 64 - 1))
          (Insn.mk 4096 ([] ++ bytes "add" ++ (fresh 0 (byte ' ') 0 (2 ^ 64 - 1)).iname_end ::
            bytes "x1, x2, x3")) =
        (resolve (fresh 0 (byte ' ') 0 (2 ^ 64 - 1)) (bytes "add")).map fun r => (r.1, some r.2)) :=
  C7_mnemonic_slice (fresh 0 (byte ' ') 0 (2 ^ 64 - 1)) 4096 [] (bytes "add") (bytes "x1, x2, x3")
    (by decide) (by decide) (by decide)

/-- C8. The out-of-bounds marker is skipped: an instruction whose text begins
with `A` leaves the whole state (store, intern table, both growth offsets)
as it is and registers nothing, wherever it stands in the block; the
instructions after it are processed from that same state. -/
theorem C8_marker_skipped (st : State) (pre rest : List Insn) (insn : Insn)
    (h : insn.disas.head? = some (byte 'A')) :
    classify st insn = some (st, none) ∧
    vcpu_tb_trans st (pre ++ insn :: rest) =
      (vcpu_tb_trans st pre).bind fun r =>
        (vcpu_tb_trans r.1 rest).map fun r2 => (r2.1, r.2 ++ none :: r2.2) := by
  have hcl : ∀ t : State, classify t insn = some (t, none) := by
    intro t
    unfold classify
    have hA : ¬ (insn.disas.headD 0 ≠ byte 'A') := by
      cases hd : insn.disas with
      | nil => rw [hd] at h; simp at h
      | cons b l =>
        rw [hd] at h
        simp only [List.head?_cons, Option.some.injEq] at h
        simp [h]
    rw [if_neg hA]
    simp
  refine ⟨hcl st, ?_⟩
  rw [vcpu_tb_trans_append]
  rcases vcpu_tb_trans st pre with _ | r
  · rfl
  · simp only [Option.some_bind, vcpu_tb_trans, hcl r.1]
    rcases vcpu_tb_trans r.1 rest with _ | r2
    · rfl
    · rfl

/-- Witness of C8: the diagnostic text between two `add` instructions. -/
theorem C8_witness :
    classify (fresh 0 (byte ' ') 0 (2 ^ 64 - 1))
        (Insn.mk 4100 (bytes "Address 0x1004 is out of bounds.")) =
      some (fresh 0 (byte ' ') 0 (2 ^ 64 - 1), none) ∧
    vcpu_tb_trans (fresh 0 (byte ' ') 0 (2 ^ 64 - 1))
        ([Insn.mk 4096 (bytes "add x1, x2, x3")] ++
          Insn.mk 4100 (bytes "Address 0x1004 is out of bounds.") ::
            [Insn.mk 4104 (bytes "sub x1, x2, x3")]) =
      (vcpu_tb_trans (fresh 0 (byte ' ') 0 (2 ^ 64 - 1)) [Insn.mk 4096 (bytes "add x1, x2, x3")]).bind
        fun r => (vcpu_tb_trans r.1 [Insn.mk 4104 (bytes "sub x1, x2, x3")]).map
          fun r2 => (r2.1, r.2 ++ none :: r2.2) :=
  C8_marker_skipped (fresh 0 (byte ' ') 0 (2 ^ 64 - 1)) [Insn.mk 4096 (bytes "add x1, x2, x3")]
    [Insn.mk 4104 (bytes "sub x1, x2, x3")] (Insn.mk 4100 (bytes "Address 0x1004 is out of bounds."))
    (by decide)

/-- C4. Without any option `qemu_plugin_install` leaves `low_bound` and
`high_bound` at their initial value 0, whatever the target and the outcome of
the system calls, so the window is `[0, 0]` and not `[0, 2^64 - 1]`: on a
successfully installed `aarch64` plugin the instruction `add x1, x2, x3` at
address `0x1000` is filtered out; no target is registered and no slot is
allocated. -/
theorem C4_default_window_is_zero :
    (∀ env target, (qemu_plugin_install env boot target []).map
        (fun r => (r.2.low_bound, r.2.high_bound)) = some (0, 0)) ∧
    ((qemu_plugin_install okEnv boot (bytes "aarch64") []).bind fun r =>
        (vcpu_tb_trans r.2 [Insn.mk 4096 (bytes "add x1, x2, x3")]).map
          fun q => (r.1, q.2, q.1.shm_count_off)) = some (0, [none], 0) := by
  constructor
  · intro env target
    simp only [qemu_plugin_install, parse_options, Option.map_some', plugin_init, if_true]
    split <;> (repeat (first | rfl | split))
  · decide

/-- C6. The classifier is not total: under the offset-0, space-terminated rule
the operand-less text `ret` has no terminator, `strchr` returns `NULL` and the
store through it faults; under the offset-18 rule the same text is shorter
than the start column.  Both in-window instructions make `classify`, and with
it `vcpu_tb_trans` after a successful installation, fault instead of producing
a token. -/
theorem C6_classifier_faults :
    (classify (fresh 0 (byte ' ') 0 (2 ^ 64 - 1)) (Insn.mk 4096 (bytes "ret"))).isSome = false ∧
    (classify (fresh 18 (byte ' ') 0 (2 ^ 64 - 1)) (Insn.mk 4096 (bytes "ret"))).isSome = false ∧
    ((qemu_plugin_install okEnv boot (bytes "aarch64") [bytes "high=ffffffffffffffff"]).map
      fun r => (r.1, (vcpu_tb_trans r.2 [Insn.mk 4096 (bytes "ret")]).isSome)) = some (0, false) := by
  decide

end insncounts

/-! ## Translation and execution -/

namespace insncounts

theorem indexIn_append_of_mem (m : List Byte) (l1 l2 : List (List Byte)) (h : m ∈ l1) :
    indexIn m (l1 ++ l2) = indexIn m l1 := by
  induction l1 with
  | nil => simp at h
  | cons n rest ih =>
    simp only [List.cons_append, indexIn]
    by_cases hn : n = m
    · rw [if_pos hn, if_pos hn]
    · rw [if_neg hn, if_neg hn]
      rcases List.mem_cons.mp h with h1 | h1
      · exact absurd h1.symm hn
      · exact congrArg (fun x => x + 1) (ih h1)

theorem indexIn_append_new (m : List Byte) (l : List (List Byte)) (h : m ∉ l) :
    indexIn m (l ++ [m]) = l.length := by
  induction l with
  | nil => simp [indexIn]
  | cons n rest ih =>
    have hn : n ≠ m := fun hn => h (by simp [hn])
    have hr : m ∉ rest := fun hr => h (by simp [hr])
    simp only [List.cons_append, indexIn, if_neg hn, List.length_cons]
    exact congrArg (fun x => x + 1) (ih hr)

theorem indexIn_getElem (l : List (List Byte)) (hnd : l.Nodup) (k : Nat) (hk : k < l.length) :
    indexIn l[k] l = k := by
  induction l generalizing k with
  | nil => simp at hk
  | cons n rest ih =>
    rw [List.nodup_cons] at hnd
    cases k with
    | zero => simp [indexIn]
    | succ k =>
      simp only [List.length_cons, Nat.add_lt_add_iff_right] at hk
      simp only [List.getElem_cons_succ, indexIn]
      have hne : n ≠ rest[k] := fun hn => hnd.1 (hn ▸ List.getElem_mem hk)
      rw [if_neg hne, ih hnd.2 k hk]

theorem indexIn_spec (m : List Byte) (l : List (List Byte)) (h : m ∈ l) :
    ∃ hk : indexIn m l < l.length, l[indexIn m l] = m := by
  induction l with
  | nil => simp at h
  | cons n rest ih =>
    by_cases hn : n = m
    · simp [indexIn, hn]
    · rcases List.mem_cons.mp h with h1 | h1
      · exact absurd h1.symm hn
      · obtain ⟨hk, he⟩ := ih h1
        simp only [indexIn, if_neg hn, List.length_cons, List.getElem_cons_succ]
        exact ⟨by omega, he⟩

theorem store_some (m : Mem) (a : Nat) (src : List Byte) (m2 : Mem) (h : store m a src = some m2) :
    a + src.length ≤ SHM_TOTAL_SIZE ∧ m2 = writeBytes m a src := by
  unfold store at h
  by_cases hc : a + src.length ≤ SHM_TOTAL_SIZE
  · rw [if_pos hc] at h
    exact ⟨hc, (Option.some.inj h).symm⟩
  · rw [if_neg hc] at h
    cases h

theorem allocate_slot_some (s : State) (name : List Byte) (r : State × Nat)
    (h : allocate_slot s name = some r) :
    r = (allocState s name, s.shm_count_off) ∧ s.shm_count_off + 16 ≤ SHM_TOTAL_SIZE ∧
      s.shm_iname_off + (name.length + 1) ≤ SHM_TOTAL_SIZE := by
  unfold allocate_slot at h
  simp only [Option.bind_eq_some] at h
  obtain ⟨m1, h1, m2, h2, m3, h3, h4⟩ := h
  have b1 := (store_some _ _ _ _ h1).1
  have b3 := (store_some _ _ _ _ h3).1
  rw [toLE_length] at b1
  simp only [List.length_append, List.length_singleton] at b3
  have hab : s.shm_count_off + 16 ≤ SHM_TOTAL_SIZE := by omega
  have heq := allocate_slot_eq s name hab b3
  unfold allocate_slot at heq
  simp only [h1, h2, h3, Option.some_bind] at heq
  rw [heq] at h4
  exact ⟨(Option.some.inj h4).symm, hab, b3⟩

theorem resolve_some {s : State} {names : List (List Byte)} (inv : Inv s names) (tok : List Byte)
    (h0 : (0 : Byte) ∉ tok) (r : State × Nat) (h : resolve s tok = some r)
    (hc : r.1.shm_count_off ≤ SHM_COUNT_SIZE) (hb : r.1.shm_iname_off ≤ SHM_TOTAL_SIZE) :
    (tok ∈ names ∧ r = (s, 16 * indexIn tok names)) ∨
    (tok ∉ names ∧ r = (allocState s tok, 16 * names.length) ∧
      16 * (names.length + 1) ≤ SHM_COUNT_SIZE ∧
      totalBytes names + (tok.length + 1) ≤ SHM_INAME_SIZE) := by
  have hC : SHM_COUNT_SIZE = 131072 := rfl
  have hI : SHM_INAME_SIZE = 131072 := rfl
  have hT : SHM_TOTAL_SIZE = 262144 := rfl
  by_cases hmem : tok ∈ names
  · left
    obtain ⟨k, hk, rfl⟩ := List.getElem_of_mem hmem
    rw [resolve_seen inv k hk] at h
    rw [indexIn_getElem names inv.nodup k hk]
    exact ⟨hmem, (Option.some.inj h).symm⟩
  · right
    unfold resolve at h
    rw [inv_lookup_new inv tok h0 hmem] at h
    obtain ⟨hr, _, _⟩ := allocate_slot_some s tok r h
    rw [hr] at hc hb
    simp only [allocState, sizeof_Counter] at hc hb
    rw [inv.count_off] at hc
    rw [inv.iname_off] at hb
    refine ⟨hmem, ?_, by omega, by omega⟩
    rw [hr, inv.count_off]

theorem resolve_offsets_mono (s : State) (tok : List Byte) (r : State × Nat)
    (h : resolve s tok = some r) :
    s.shm_count_off ≤ r.1.shm_count_off ∧ s.shm_iname_off ≤ r.1.shm_iname_off := by
  unfold resolve at h
  rcases hq : g_hash_table_lookup s.mem s.insns tok with _ | c
  · rw [hq] at h
    obtain ⟨hr, _, _⟩ := allocate_slot_some s tok r h
    rw [hr]
    simp only [allocState]
    omega
  · rw [hq] at h
    simp only [Option.some.injEq] at h
    rw [← h]
    exact ⟨le_refl _, le_refl _⟩

theorem classify_offsets_mono (s : State) (insn : Insn) (r : State × Option Nat)
    (h : classify s insn = some r) :
    s.shm_count_off ≤ r.1.shm_count_off ∧ s.shm_iname_off ≤ r.1.shm_iname_off := by
  unfold classify at h
  split at h
  · simp only [Option.some.injEq] at h
    rw [← h]
    exact ⟨le_refl _, le_refl _⟩
  · split at h
    · rcases hm : mnemonic s.iname_off s.iname_end insn.disas with _ | tok
      · rw [hm] at h
        simp at h
      · rw [hm] at h
        simp only [Option.some_bind] at h
        rcases hr : resolve s tok with _ | q
        · rw [hr] at h
          simp at h
        · rw [hr] at h
          simp only [Option.some_bind, Option.some.injEq] at h
          rw [← h]
          exact resolve_offsets_mono s tok q hr
    · simp only [Option.some.injEq] at h
      rw [← h]
      exact ⟨le_refl _, le_refl _⟩

theorem vcpu_tb_trans_offsets_mono (tb : List Insn) :
    ∀ (s : State) (r : State × List (Option Nat)), vcpu_tb_trans s tb = some r →
      s.shm_count_off ≤ r.1.shm_count_off ∧ s.shm_iname_off ≤ r.1.shm_iname_off := by
  induction tb with
  | nil =>
    intro s r h
    simp only [vcpu_tb_trans, Option.some.injEq] at h
    rw [← h]
    exact ⟨le_refl _, le_refl _⟩
  | cons insn rest ih =>
    intro s r h
    simp only [vcpu_tb_trans] at h
    rcases hc : classify s insn with _ | q
    · rw [hc] at h
      simp at h
    · rw [hc] at h
      simp only [Option.some_bind] at h
      rcases hv : vcpu_tb_trans q.1 rest with _ | q2
      · rw [hv] at h
        simp at h
      · rw [hv] at h
        simp only [Option.some_bind, Option.some.injEq] at h
        rw [← h]
        have h1 := classify_offsets_mono s insn q hc
        have h2 := ih q.1 q2 hv
        simp only
        omega

theorem tokenOf_congr {a b : State} (h : SameConfig a b) (insn : Insn) :
    tokenOf a insn = tokenOf b insn := by
  obtain ⟨h1, h2, h3, h4⟩ := h
  unfold tokenOf
  rw [h1, h2, h3, h4]

theorem regOf_congr {a b : State} (h : SameConfig a b) (names : List (List Byte)) (insn : Insn) :
    regOf a names insn = regOf b names insn := by
  unfold regOf
  rw [tokenOf_congr h]

theorem regOf_append (cfg : State) (names ext : List (List Byte)) (insn : Insn)
    (h : ∀ m, tokenOf cfg insn = some m → m ∈ names) :
    regOf cfg (names ++ ext) insn = regOf cfg names insn := by
  unfold regOf
  rcases ht : tokenOf cfg insn with _ | m
  · rfl
  · simp only [Option.map_some']
    rw [indexIn_append_of_mem m names ext (h m ht)]

theorem sameConfig_trans {a b c : State} (h1 : SameConfig a b) (h2 : SameConfig b c) :
    SameConfig a c :=
  ⟨h1.1.trans h2.1, h1.2.1.trans h2.2.1, h1.2.2.1.trans h2.2.2.1, h1.2.2.2.trans h2.2.2.2⟩

theorem sameConfig_refl (a : State) : SameConfig a a := ⟨rfl, rfl, rfl, rfl⟩

theorem grows_refl {s : State} {names : List (List Byte)} (inv : Inv s names) :
    Grows s s names [] where
  inv := by simpa using inv
  old := fun _ _ => rfl
  new := fun k h1 h2 => by simp at h2; omega
  same := sameConfig_refl s

theorem grows_trans {s t u : State} {names e1 e2 : List (List Byte)}
    (g1 : Grows s t names e1) (g2 : Grows t u (names ++ e1) e2) :
    Grows s u names (e1 ++ e2) where
  inv := by rw [← List.append_assoc]; exact g2.inv
  old := fun k hk => by
    rw [g2.old k (by rw [List.length_append]; omega), g1.old k hk]
  new := fun k h1 h2 => by
    by_cases hk : k < (names ++ e1).length
    · rw [g2.old k hk]
      exact g1.new k h1 hk
    · exact g2.new k (by omega) (by rw [List.append_assoc]; exact h2)
  same := sameConfig_trans g1.same g2.same

theorem classify_some {s : State} {names : List (List Byte)} (inv : Inv s names) (insn : Insn)
    (r : State × Option Nat) (h : classify s insn = some r)
    (hc : r.1.shm_count_off ≤ SHM_COUNT_SIZE) (hb : r.1.shm_iname_off ≤ SHM_TOTAL_SIZE) :
    ∃ ext, Grows s r.1 names ext ∧ r.2 = regOf s (names ++ ext) insn ∧
      ∀ m, tokenOf s insn = some m → m ∈ names ++ ext := by
  unfold classify at h
  by_cases hw : insn.vaddr < s.low_bound ∨ insn.vaddr > s.high_bound
  · rw [if_pos hw] at h
    have ht : tokenOf s insn = none := by
      unfold tokenOf
      rw [if_neg (by omega)]
    rw [← Option.some.inj h]
    exact ⟨[], grows_refl inv, by simp [regOf, ht], by simp [ht]⟩
  · rw [if_neg hw] at h
    by_cases hA : insn.disas.headD 0 ≠ byte 'A'
    · rw [if_pos hA] at h
      have ht : tokenOf s insn = mnemonic s.iname_off s.iname_end insn.disas := by
        unfold tokenOf
        rw [if_pos ⟨by omega, by omega, hA⟩]
      rcases hm : mnemonic s.iname_off s.iname_end insn.disas with _ | tok
      · rw [hm] at h
        simp at h
      · rw [hm] at h ht
        simp only [Option.some_bind] at h
        rcases hr : resolve s tok with _ | q
        · rw [hr] at h
          simp at h
        · rw [hr] at h
          simp only [Option.some_bind, Option.some.injEq] at h
          rw [← h] at hc hb ⊢
          simp only at hc hb ⊢
          have h0 := mnemonic_nonul _ _ _ _ hm
          rcases resolve_some inv tok h0 q hr hc hb with ⟨hmem, hq⟩ | ⟨hnew, hq, hc1, hb1⟩
          · rw [hq]
            refine ⟨[], grows_refl inv, ?_, ?_⟩
            · simp [regOf, ht]
            · intro m hmm
              rw [ht] at hmm
              simp only [Option.some.injEq] at hmm
              rw [← hmm]
              simpa using hmem
          · rw [hq]
            refine ⟨[tok], ⟨inv_alloc inv tok h0 hnew hc1 hb1, ?_, ?_, sameConfig_alloc s tok⟩, ?_, ?_⟩
            · intro k hk
              exact alloc_count_old inv tok k hk
            · intro k h1 h2
              simp only [List.length_append, List.length_singleton] at h2
              have hk : k = names.length := by omega
              rw [hk]
              exact alloc_count_new inv tok hc1
            · simp [regOf, ht, indexIn_append_new tok names hnew]
            · intro m hmm
              rw [ht] at hmm
              simp only [Option.some.injEq] at hmm
              rw [← hmm]
              simp
    · rw [if_neg hA] at h
      have ht : tokenOf s insn = none := by
        unfold tokenOf
        rw [if_neg (fun hh => hA hh.2.2)]
      rw [← Option.some.inj h]
      exact ⟨[], grows_refl inv, by simp [regOf, ht], by simp [ht]⟩

theorem vcpu_tb_trans_some (tb : List Insn) :
    ∀ (s : State) (names : List (List Byte)) (r : State × List (Option Nat)), Inv s names →
      vcpu_tb_trans s tb = some r →
      r.1.shm_count_off ≤ SHM_COUNT_SIZE → r.1.shm_iname_off ≤ SHM_TOTAL_SIZE →
      ∃ ext, Grows s r.1 names ext ∧ r.2 = tb.map (regOf s (names ++ ext)) ∧
        ∀ insn ∈ tb, ∀ m, tokenOf s insn = some m → m ∈ names ++ ext := by
  induction tb with
  | nil =>
    intro s names r inv h hc hb
    simp only [vcpu_tb_trans, Option.some.injEq] at h
    rw [← h]
    exact ⟨[], grows_refl inv, rfl, by simp⟩
  | cons insn rest ih =>
    intro s names r inv h hc hb
    simp only [vcpu_tb_trans] at h
    rcases hcl : classify s insn with _ | q
    · rw [hcl] at h
      simp at h
    · rw [hcl] at h
      simp only [Option.some_bind] at h
      rcases hv : vcpu_tb_trans q.1 rest with _ | q2
      · rw [hv] at h
        simp at h
      · rw [hv] at h
        simp only [Option.some_bind, Option.some.injEq] at h
        rw [← h] at hc hb ⊢
        simp only at hc hb ⊢
        have hmono := vcpu_tb_trans_offsets_mono rest q.1 q2 hv
        obtain ⟨e1, g1, hreg1, htok1⟩ := classify_some inv insn q hcl (by omega) (by omega)
        obtain ⟨e2, g2, hreg2, htok2⟩ := ih q.1 (names ++ e1) q2 g1.inv hv hc hb
        refine ⟨e1 ++ e2, grows_trans g1 g2, ?_, ?_⟩
        · simp only [List.map_cons, List.cons.injEq]
          constructor
          · rw [hreg1, ← List.append_assoc, regOf_append s (names ++ e1) e2 insn htok1]
          · rw [hreg2, ← List.append_assoc]
            apply List.map_congr_left
            intro x _
            exact (regOf_congr g1.same _ x).symm
        · intro x hx m hm
          rw [← List.append_assoc]
          rcases List.mem_cons.mp hx with h1 | h1
          · rw [h1] at hm
            exact List.mem_append_left _ (htok1 m hm)
          · exact htok2 x h1 m (by rw [← tokenOf_congr g1.same]; exact hm)

theorem inv_of_mem_agree {s : State} {names : List (List Byte)} (inv : Inv s names) (m2 : Mem)
    (h : ∀ x, (∀ i, i < names.length → x < 16 * i ∨ 16 * i + 8 ≤ x) → m2 x = s.mem x) :
    Inv { s with mem := m2 } names := by
  have hC : SHM_COUNT_SIZE = 131072 := rfl
  have hcap := inv.cap_count
  refine ⟨inv.nodup, inv.nonul, inv.count_off, inv.iname_off, inv.cap_count, inv.cap_iname,
    ?_, ?_, ?_, inv.table⟩
  · intro k hk
    rw [← inv.slot_off k hk]
    apply readU64_congr
    intro x h1 h2
    apply h
    intro i _
    omega
  · intro k hk
    rw [← inv.name_at k hk]
    apply readBytes_congr
    intro x h1 h2
    apply h
    intro i hi
    have := nameOff_ge names k
    omega
  · intro a h1 h2
    rw [← inv.unused a h1 h2]
    apply h
    intro i hi
    omega

theorem inline_add_u64_outside (m : Mem) (t x : Nat) (h : x < t ∨ t + 8 ≤ x) :
    inline_add_u64 m t x = m x :=
  writeU64_outside m t _ x h

theorem readU64_inline_add_u64_self (m : Mem) (t : Nat) :
    readU64 (inline_add_u64 m t) t = (readU64 m t + 1) % 2 ^ 64 := by
  unfold inline_add_u64
  rw [readU64_writeU64_self, Nat.mod_mod]

theorem readU64_inline_add_u64_other (m : Mem) (t a : Nat) (h : a + 8 ≤ t ∨ t + 8 ≤ a) :
    readU64 (inline_add_u64 m t) a = readU64 m a :=
  readU64_writeU64_disjoint m t _ a h

theorem cache_lookup (tbs : List (List Insn)) (f : Insn → Option Nat) (b i : Nat) :
    ((tbs.map fun tb => tb.map f).getD b []).getD i none = (insnAt tbs b i).bind f := by
  simp only [List.getD_eq_getElem?_getD, List.getElem?_map, insnAt]
  rcases tbs[b]? with _ | tb
  · simp
  · simp only [Option.map_some', Option.getD_some, List.getElem?_map, Option.some_bind]
    rcases tb[i]? with _ | insn
    · simp
    · simp

theorem insnAt_mem (tbs : List (List Insn)) (b i : Nat) (insn : Insn)
    (h : insnAt tbs b i = some insn) : ∃ tb ∈ tbs, insn ∈ tb := by
  unfold insnAt at h
  rcases hb : tbs[b]? with _ | tb
  · rw [hb] at h
    simp at h
  · rw [hb] at h
    simp only [Option.some_bind] at h
    exact ⟨tb, List.getElem?_mem hb, List.getElem?_mem h⟩

theorem step_offsets_mono (sys : Sys) (ev : Event) (sys1 : Sys) (h : step sys ev = some sys1) :
    sys.st.shm_count_off ≤ sys1.st.shm_count_off ∧
      sys.st.shm_iname_off ≤ sys1.st.shm_iname_off := by
  cases ev with
  | trans tb =>
    simp only [step] at h
    rcases hv : vcpu_tb_trans sys.st tb with _ | r
    · rw [hv] at h
      simp at h
    · rw [hv] at h
      simp only [Option.map_some', Option.some.injEq] at h
      rw [← h]
      exact vcpu_tb_trans_offsets_mono tb sys.st r hv
  | exec b i =>
    simp only [step] at h
    rcases ht : (sys.cache.getD b []).getD i none with _ | target
    · rw [ht] at h
      simp only [Option.some.injEq] at h
      rw [← h]
      exact ⟨le_refl _, le_refl _⟩
    · rw [ht] at h
      simp only [Option.some.injEq] at h
      rw [← h]
      exact ⟨le_refl _, le_refl _⟩

theorem run_offsets_mono (evs : List Event) :
    ∀ (sys sys1 : Sys), run sys evs = some sys1 →
      sys.st.shm_count_off ≤ sys1.st.shm_count_off ∧
        sys.st.shm_iname_off ≤ sys1.st.shm_iname_off := by
  induction evs with
  | nil =>
    intro sys sys1 h
    simp only [run, Option.some.injEq] at h
    rw [← h]
    exact ⟨le_refl _, le_refl _⟩
  | cons ev rest ih =>
    intro sys sys1 h
    simp only [run] at h
    rcases hs : step sys ev with _ | sys2
    · rw [hs] at h
      simp at h
    · rw [hs] at h
      simp only [Option.some_bind] at h
      have h1 := step_offsets_mono sys ev sys2 hs
      have h2 := ih sys2 sys1 h
      omega

theorem sysInv_congr {cfg : State} {sys : Sys} {tbs : List (List Insn)}
    {names : List (List Byte)} {c c2 : List Byte → Nat} (h : ∀ m, c m = c2 m)
    (I : SysInv cfg sys tbs names c) : SysInv cfg sys tbs names c2 := by
  have hc : c = c2 := funext h
  rw [← hc]
  exact I

theorem step_exec_inv {cfg : State} {sys : Sys} {tbs : List (List Insn)}
    {names : List (List Byte)} {c : List Byte → Nat} (I : SysInv cfg sys tbs names c)
    (b i : Nat) (sys1 : Sys) (h : step sys (.exec b i) = some sys1) :
    SysInv cfg sys1 tbs names
      (fun m => c m + (if (insnAt tbs b i).bind (tokenOf cfg) = some m then 1 else 0)) := by
  simp only [step] at h
  rw [I.cache, cache_lookup] at h
  have hnone : (insnAt tbs b i).bind (tokenOf cfg) = none → sys1 = sys →
      SysInv cfg sys1 tbs names
        (fun m => c m + (if (insnAt tbs b i).bind (tokenOf cfg) = some m then 1 else 0)) := by
    intro hn he
    rw [he]
    apply sysInv_congr _ I
    intro m
    rw [hn]
    simp
  rcases hi : insnAt tbs b i with _ | insn
  · rw [hi] at h
    simp only [Option.none_bind, Option.some.injEq] at h
    rw [← hi]
    exact hnone (by rw [hi]; rfl) h.symm
  · rw [hi] at h
    simp only [Option.some_bind] at h
    rcases ht : tokenOf cfg insn with _ | m
    · have hr : regOf cfg names insn = none := by simp [regOf, ht]
      rw [hr] at h
      simp only [Option.some.injEq] at h
      rw [← hi]
      exact hnone (by rw [hi]; simpa using ht) h.symm
    · have hr : regOf cfg names insn = some (16 * indexIn m names) := by simp [regOf, ht]
      rw [hr] at h
      simp only [Option.some.injEq] at h
      obtain ⟨tb, htb, hin⟩ := insnAt_mem tbs b i insn hi
      have hmem : m ∈ names := I.toks tb htb insn hin m ht
      obtain ⟨hk, hkm⟩ := indexIn_spec m names hmem
      have hbind : (some insn).bind (tokenOf cfg) = some m := by simpa using ht
      rw [← h]
      refine ⟨inv_of_mem_agree I.inv _ (fun x hx => inline_add_u64_outside _ _ _ (hx _ hk)),
        I.same, rfl, I.toks, ?_, ?_⟩
      · intro j hj
        simp only [hbind, Option.some.injEq]
        by_cases hjk : j = indexIn m names
        · subst hjk
          rw [readU64_inline_add_u64_self, I.counts _ hk, if_pos hkm.symm, Nat.add_mod (c _) 1]
          rfl
        · have hne : m ≠ names[j] := by
            intro he
            apply hjk
            rw [he, indexIn_getElem names I.inv.nodup j hj]
          rw [if_neg hne, readU64_inline_add_u64_other _ _ _ (by omega), I.counts j hj]
          rfl
      · intro x hx
        simp only [hbind, Option.some.injEq]
        have hne : m ≠ x := fun he => hx (he ▸ hmem)
        rw [if_neg hne, I.unseen x hx]

theorem step_trans_inv {cfg : State} {sys : Sys} {tbs : List (List Insn)}
    {names : List (List Byte)} {c : List Byte → Nat} (I : SysInv cfg sys tbs names c)
    (tb : List Insn) (sys1 : Sys) (h : step sys (.trans tb) = some sys1)
    (hc : sys1.st.shm_count_off ≤ SHM_COUNT_SIZE) (hb : sys1.st.shm_iname_off ≤ SHM_TOTAL_SIZE) :
    ∃ names1, SysInv cfg sys1 (tbs ++ [tb]) names1 c := by
  simp only [step] at h
  rcases hv : vcpu_tb_trans sys.st tb with _ | r
  · rw [hv] at h
    simp at h
  · rw [hv] at h
    simp only [Option.map_some', Option.some.injEq] at h
    rw [← h] at hc hb ⊢
    simp only at hc hb
    obtain ⟨ext, g, hreg, htok⟩ := vcpu_tb_trans_some tb sys.st names r I.inv hv hc hb
    have hnd := g.inv.nodup
    refine ⟨names ++ ext, g.inv, sameConfig_trans I.same g.same, ?_, ?_, ?_, ?_⟩
    · simp only [List.map_append, List.map_cons, List.map_nil, I.cache]
      congr 1
      · apply List.map_congr_left
        intro t ht
        apply List.map_congr_left
        intro x hx
        exact (regOf_append cfg names ext x (I.toks t ht x hx)).symm
      · rw [hreg]
        congr 1
        apply List.map_congr_left
        intro x _
        exact (regOf_congr I.same _ x).symm
    · intro t ht x hx m hm
      rcases List.mem_append.mp ht with h1 | h1
      · exact List.mem_append_left _ (I.toks t h1 x hx m hm)
      · simp only [List.mem_singleton] at h1
        rw [h1] at hx
        exact htok x hx m (by rw [← tokenOf_congr I.same]; exact hm)
    · intro k hk
      by_cases hk2 : k < names.length
      · rw [g.old k hk2, I.counts k hk2, List.getElem_append_left hk2]
      · rw [g.new k (by omega) hk]
        have hmem : (names ++ ext)[k] ∉ names := by
          intro hin
          rw [List.getElem_append_right (by omega)] at hin
          exact (List.disjoint_of_nodup_append hnd) hin (List.getElem_mem _)
        rw [I.unseen _ hmem]
        rfl
    · intro m hm
      exact I.unseen m (fun hin => hm (List.mem_append_left _ hin))

theorem run_inv (cfg : State) (evs : List Event) :
    ∀ (sys : Sys) (tbs : List (List Insn)) (names : List (List Byte)) (c : List Byte → Nat)
      (sys1 : Sys), SysInv cfg sys tbs names c → run sys evs = some sys1 →
      sys1.st.shm_count_off ≤ SHM_COUNT_SIZE → sys1.st.shm_iname_off ≤ SHM_TOTAL_SIZE →
      ∃ names1, SysInv cfg sys1 (translated tbs evs) names1
        (fun m => c m + execCount cfg tbs evs m) := by
  induction evs with
  | nil =>
    intro sys tbs names c sys1 I h hc hb
    simp only [run, Option.some.injEq] at h
    rw [← h]
    exact ⟨names, sysInv_congr (fun m => by simp [execCount]) I⟩
  | cons ev rest ih =>
    intro sys tbs names c sys1 I h hc hb
    simp only [run] at h
    rcases hs : step sys ev with _ | sys2
    · rw [hs] at h
      simp at h
    · rw [hs] at h
      simp only [Option.some_bind] at h
      have hmono := run_offsets_mono rest sys2 sys1 h
      cases ev with
      | trans tb =>
        obtain ⟨names2, I2⟩ := step_trans_inv I tb sys2 hs (by omega) (by omega)
        obtain ⟨names1, I1⟩ := ih sys2 (tbs ++ [tb]) names2 c sys1 I2 h hc hb
        exact ⟨names1, I1⟩
      | exec b i =>
        have I2 := step_exec_inv I b i sys2 hs
        obtain ⟨names1, I1⟩ := ih sys2 tbs names _ sys1 I2 h hc hb
        refine ⟨names1, sysInv_congr (fun m => ?_) I1⟩
        simp only [execCount]
        omega

theorem sysInv_fresh (o : Nat) (e : Byte) (lo hi : Nat) :
    SysInv (fresh o e lo hi) ⟨fresh o e lo hi, []⟩ [] [] (fun _ => 0) where
  inv := inv_fresh o e lo hi
  same := sameConfig_refl _
  cache := rfl
  toks := by simp
  counts := by simp
  unseen := fun _ _ => rfl

theorem eq_some_getD {α : Type} (o : Option α) (d : α) (h : o.isSome = true) :
    o = some (o.getD d) := by
  cases o with
  | none => simp at h
  | some x => rfl

/-- C1. Counts per mnemonic.  After any sequence of block translations and
instruction executions from a fresh store, with no fault and neither region's
capacity exceeded, the `count` field of the slot that the table holds for a
mnemonic `m` equals, modulo `2^64`, the number of executions of translated
in-window instructions whose token is `m`; and every such instruction, in
whatever block, has that one slot as its registered inline-add target. -/
theorem C1_count_per_mnemonic (o : Nat) (e : Byte) (lo hi : Nat) (evs : List Event) (sys1 : Sys)
    (hrun : run ⟨fresh o e lo hi, []⟩ evs = some sys1)
    (hc : sys1.st.shm_count_off ≤ SHM_COUNT_SIZE)
    (hb : sys1.st.shm_iname_off ≤ SHM_TOTAL_SIZE) :
    (∀ m slot, (0 : Byte) ∉ m →
      g_hash_table_lookup sys1.st.mem sys1.st.insns m = some slot →
      readU64 sys1.st.mem slot = execCount (fresh o e lo hi) [] evs m % 2 ^ 64) ∧
    (∀ b i insn m, insnAt (translated [] evs) b i = some insn →
      tokenOf (fresh o e lo hi) insn = some m →
      ∃ slot, g_hash_table_lookup sys1.st.mem sys1.st.insns m = some slot ∧
        (sys1.cache.getD b []).getD i none = some slot) := by
  obtain ⟨names, I⟩ := run_inv (fresh o e lo hi) evs _ [] [] (fun _ => 0) sys1
    (sysInv_fresh o e lo hi) hrun hc hb
  constructor
  · intro m slot h0 hl
    by_cases hmem : m ∈ names
    · obtain ⟨k, hk, rfl⟩ := List.getElem_of_mem hmem
      rw [inv_lookup_seen I.inv k hk] at hl
      rw [← Option.some.inj hl, I.counts k hk]
      simp
    · rw [inv_lookup_new I.inv m h0 hmem] at hl
      cases hl
  · intro b i insn m hi ht
    obtain ⟨tb, htb, hin⟩ := insnAt_mem _ b i insn hi
    have hmem : m ∈ names := I.toks tb htb insn hin m ht
    obtain ⟨hk, hkm⟩ := indexIn_spec m names hmem
    refine ⟨16 * indexIn m names, ?_, ?_⟩
    · have := inv_lookup_seen I.inv _ hk
      rw [hkm] at this
      exact this
    · rw [I.cache, cache_lookup, hi]
      simp [regOf, ht]

/-- Witness of C1: two `add` instructions in different blocks share slot 0,
whose count after one execution each is 2; a single `add` executed five times
leaves the count of its slot at 5. -/
theorem C1_witness :
    (∃ sys1, run ⟨fresh 0 (byte ' ') 0 (2 ^ 64 - 1), []⟩ twoAdds = some sys1 ∧
      g_hash_table_lookup sys1.st.mem sys1.st.insns (bytes "add") = some 0 ∧
      (sys1.cache.getD 0 []).getD 0 none = some 0 ∧
      (sys1.cache.getD 1 []).getD 1 none = some 0 ∧
      readU64 sys1.st.mem 0 = 2) ∧
    (∃ sys1, run ⟨fresh 0 (byte ' ') 0 (2 ^ 64 - 1), []⟩ fiveRuns = some sys1 ∧
      g_hash_table_lookup sys1.st.mem sys1.st.insns (bytes "add") = some 0 ∧
      readU64 sys1.st.mem 0 = 5) := by
  have r2 : run ⟨fresh 0 (byte ' ') 0 (2 ^ 64 - 1), []⟩ twoAdds = some afterTwoAdds :=
    eq_some_getD _ _ (by decide)
  have r5 : run ⟨fresh 0 (byte ' ') 0 (2 ^ 64 - 1), []⟩ fiveRuns = some afterFiveRuns :=
    eq_some_getD _ _ (by decide)
  have c2 := C1_count_per_mnemonic 0 (byte ' ') 0 (2 ^ 64 - 1) twoAdds afterTwoAdds r2
    (by decide) (by decide)
  have c5 := C1_count_per_mnemonic 0 (byte ' ') 0 (2 ^ 64 - 1) fiveRuns afterFiveRuns r5
    (by decide) (by decide)
  refine ⟨⟨afterTwoAdds, r2, by decide, by decide, by decide, ?_⟩,
    ⟨afterFiveRuns, r5, by decide, ?_⟩⟩
  · exact (c2.1 (bytes "add") 0 (by decide) (by decide)).trans (by decide)
  · exact (c5.1 (bytes "add") 0 (by decide) (by decide)).trans (by decide)

end insncounts

/-! ## The reader in reset mode -/

namespace insncountsctl

theorem writeU64_zero (m : Mem) (a x : Nat) :
    writeU64 m a 0 x = if a ≤ x ∧ x < a + 8 then 0 else m x := by
  have hz : ∀ i, ([0, 0, 0, 0, 0, 0, 0, 0] : List Byte).getD i 0 = 0 := by
    intro i
    rcases i with _ | _ | _ | _ | _ | _ | _ | _ | _ <;> rfl
  have ht : toLE 8 0 = [0, 0, 0, 0, 0, 0, 0, 0] := by decide
  unfold writeU64 writeBytes
  rw [ht]
  by_cases h : a ≤ x ∧ x < a + 8
  · rw [if_pos (by simpa using h), if_pos h, hz]
  · rw [if_neg (by simpa using h), if_neg h]

theorem occupied_congr (m1 m2 : Mem) (h : ∀ x, 8 ≤ x % 16 → m1 x = m2 x) (n k : Nat) :
    occupied m1 n k = occupied m2 n k := by
  induction n generalizing k with
  | zero => rfl
  | succ n ih =>
    have hr : readU64 m1 (16 * k + 8) = readU64 m2 (16 * k + 8) :=
      readU64_congr (fun x h1 h2 => h x (by omega))
    simp only [occupied, hr, ih]

theorem occupied_le (m : Mem) (n k : Nat) : occupied m n k ≤ n := by
  induction n generalizing k with
  | zero => simp [occupied]
  | succ n ih =>
    simp only [occupied]
    split
    · omega
    · have := ih (k + 1)
      omega

theorem occupied_nonzero (m : Mem) (n k i : Nat) (h : i < occupied m n k) :
    readU64 m (16 * (k + i) + 8) ≠ 0 := by
  induction n generalizing k i with
  | zero => simp [occupied] at h
  | succ n ih =>
    simp only [occupied] at h
    by_cases hz : readU64 m (16 * k + 8) = 0
    · rw [if_pos hz] at h
      omega
    · rw [if_neg hz] at h
      cases i with
      | zero => exact hz
      | succ i =>
        have := ih (k + 1) i (by omega)
        rw [show k + (i + 1) = k + 1 + i by omega]
        exact this

theorem occupied_sentinel (m : Mem) (n k : Nat) (h : occupied m n k < n) :
    readU64 m (16 * (k + occupied m n k) + 8) = 0 := by
  induction n generalizing k with
  | zero => simp at h
  | succ n ih =>
    simp only [occupied] at h ⊢
    by_cases hz : readU64 m (16 * k + 8) = 0
    · rw [if_pos hz]
      exact hz
    · rw [if_neg hz] at h ⊢
      have := ih (k + 1) (by omega)
      rw [show k + (occupied m n (k + 1) + 1) = k + 1 + occupied m n (k + 1) by omega]
      exact this

theorem zeroCounts_zero (m : Mem) (k : Nat) : zeroCounts m k 0 = m := by
  funext x
  unfold zeroCounts
  rw [if_neg (by omega)]

theorem zeroCounts_step (m : Mem) (k j : Nat) :
    zeroCounts (writeU64 m (16 * k) 0) (k + 1) j = zeroCounts m k (j + 1) := by
  funext x
  unfold zeroCounts
  rw [writeU64_zero]
  by_cases h1 : 16 * (k + 1) ≤ x ∧ x < 16 * (k + 1 + j) ∧ x % 16 < 8
  · rw [if_pos h1, if_pos (by omega)]
  · rw [if_neg h1]
    by_cases h2 : 16 * k ≤ x ∧ x < 16 * k + 8
    · rw [if_pos h2, if_pos (by omega)]
    · rw [if_neg h2, if_neg (by omega)]

theorem walk_reset (n : Nat) :
    ∀ (k : Nat) (m : Mem), walk true n (16 * k) m = some (zeroCounts m k (occupied m n k), []) := by
  induction n with
  | zero =>
    intro k m
    simp only [walk, occupied, zeroCounts_zero]
  | succ n ih =>
    intro k m
    by_cases hz : readU64 m (16 * k + 8) = 0
    · simp only [walk, occupied, if_pos hz, zeroCounts_zero]
    · have h16 : 16 * k + sizeof_Counter = 16 * (k + 1) := by
        simp only [sizeof_Counter]
        omega
      have hc : occupied (writeU64 m (16 * k) 0) n (k + 1) = occupied m n (k + 1) :=
        occupied_congr _ _ (fun x hx => by rw [writeU64_zero, if_neg (by omega)]) n (k + 1)
      simp only [walk, occupied, if_neg hz, if_true, h16, ih, hc, zeroCounts_step]

theorem main_reset (extra : Nat) (m : Mem) :
    main (extra + 3) true true m = some (0, zeroCounts m 0 (occupied m 8192 0), []) := by
  have h := walk_reset 8192 0 m
  have h8 : SHM_COUNT_SIZE / sizeof_Counter = 8192 := by decide
  simp only [Nat.mul_zero] at h
  simp only [main, h8]
  rw [if_neg (by omega)]
  simp [h]

end insncountsctl

namespace insncountsctl

theorem readU64_zeroCounts_count (m : Mem) (j k : Nat) (h : k < j) :
    readU64 (zeroCounts m 0 j) (16 * k) = 0 := by
  apply readU64_zero_of_zero
  intro x h1 h2
  unfold zeroCounts
  rw [if_pos (by omega)]

theorem zeroCounts_outside (m : Mem) (j x : Nat) (h : ¬ (x < 16 * j ∧ x % 16 < 8)) :
    zeroCounts m 0 j x = m x := by
  unfold zeroCounts
  rw [if_neg (by omega)]

theorem zeroCounts_idem (m : Mem) (j : Nat) : zeroCounts (zeroCounts m 0 j) 0 j = zeroCounts m 0 j := by
  funext x
  by_cases h : 16 * 0 ≤ x ∧ x < 16 * (0 + j) ∧ x % 16 < 8
  · simp only [zeroCounts, if_pos h]
  · simp only [zeroCounts, if_neg h]

/-- C12. Reset mode, postcondition and frame.  For every content `m` of the
mapping, the reader run with a second argument returns 0, prints nothing and
leaves a mapping `m1` in which every slot before the first slot whose
`name_offset` is 0 (there are `occupied m 8192 0` of them, at most 8192) has
`count` 0, while every byte outside the `count` fields of those slots is as in
`m`: every `name_offset` field, the whole name region, and every slot at or
after the sentinel slot, its `count` included. -/
theorem C12_reset_frame (extra : Nat) (m : Mem) :
    ∃ m1, main (extra + 3) true true m = some (0, m1, []) ∧
      occupied m 8192 0 ≤ 8192 ∧
      (∀ k, k < occupied m 8192 0 → readU64 m (16 * k + 8) ≠ 0) ∧
      (occupied m 8192 0 < 8192 → readU64 m (16 * occupied m 8192 0 + 8) = 0) ∧
      (∀ k, k < occupied m 8192 0 → readU64 m1 (16 * k) = 0) ∧
      (∀ x, ¬ (x < 16 * occupied m 8192 0 ∧ x % 16 < 8) → m1 x = m x) ∧
      (∀ k, readU64 m1 (16 * k + 8) = readU64 m (16 * k + 8)) ∧
      (∀ x, SHM_COUNT_SIZE ≤ x → m1 x = m x) ∧
      (∀ k, occupied m 8192 0 ≤ k → readU64 m1 (16 * k) = readU64 m (16 * k)) := by
  have hC : SHM_COUNT_SIZE = 131072 := rfl
  have hle := occupied_le m 8192 0
  refine ⟨_, main_reset extra m, hle, ?_, ?_, ?_, ?_, ?_, ?_, ?_⟩
  · intro k hk
    have := occupied_nonzero m 8192 0 k hk
    rw [Nat.zero_add] at this
    exact this
  · intro h
    have := occupied_sentinel m 8192 0 h
    rw [Nat.zero_add] at this
    exact this
  · intro k hk
    exact readU64_zeroCounts_count m _ k hk
  · intro x hx
    exact zeroCounts_outside m _ x hx
  · intro k
    apply readU64_congr
    intro x h1 h2
    exact zeroCounts_outside m _ x (by omega)
  · intro x hx
    exact zeroCounts_outside m _ x (by omega)
  · intro k hk
    apply readU64_congr
    intro x h1 h2
    exact zeroCounts_outside m _ x (by omega)

/-- C13. Reset idempotence.  For every content `m` of the mapping, a reset run
yields a mapping `m1` on which a second reset run yields `m1` again; in `m1`
all counts before the sentinel are zero and every `name_offset` field and every
byte of the name region is as in `m`. -/
theorem C13_reset_idempotent (extra extra2 : Nat) (m : Mem) :
    ∃ m1, main (extra + 3) true true m = some (0, m1, []) ∧
      main (extra2 + 3) true true m1 = some (0, m1, []) ∧
      (∀ k, k < occupied m 8192 0 → readU64 m1 (16 * k) = 0) ∧
      (∀ k, readU64 m1 (16 * k + 8) = readU64 m (16 * k + 8)) ∧
      (∀ x, SHM_COUNT_SIZE ≤ x → m1 x = m x) := by
  have hC : SHM_COUNT_SIZE = 131072 := rfl
  have hle := occupied_le m 8192 0
  have hocc : occupied (zeroCounts m 0 (occupied m 8192 0)) 8192 0 = occupied m 8192 0 :=
    occupied_congr _ _ (fun x hx => zeroCounts_outside m _ x (by omega)) 8192 0
  refine ⟨_, main_reset extra m, ?_, ?_, ?_, ?_⟩
  · rw [main_reset, hocc, zeroCounts_idem]
  · intro k hk
    exact readU64_zeroCounts_count m _ k hk
  · intro k
    apply readU64_congr
    intro x h1 h2
    exact zeroCounts_outside m _ x (by omega)
  · intro x hx
    exact zeroCounts_outside m _ x (by omega)

end insncountsctl

/-! ## Exit status and output of the reader -/

namespace insncountsctl

theorem main_failure (argc : Nat) (open_ok mmap_ok : Bool) (m : Mem)
    (h : argc < 2 ∨ open_ok = false ∨ mmap_ok = false) :
    main argc open_ok mmap_ok m = some (-1, m, []) := by
  unfold main
  by_cases h1 : argc < 2
  · rw [if_pos h1]
  · rw [if_neg h1]
    cases open_ok with
    | false => rfl
    | true =>
      cases mmap_ok with
      | false => rfl
      | true => simp at h; omega

theorem main_status (argc : Nat) (m : Mem) (r : Int × Mem × List (List Byte × Nat))
    (h2 : 2 ≤ argc) (h : main argc true true m = some r) : r.1 = 0 := by
  unfold main at h
  rw [if_neg (by omega)] at h
  simp only [Bool.not_true, Bool.false_eq_true, if_false] at h
  rcases hw : walk (decide (argc > 2)) (SHM_COUNT_SIZE / sizeof_Counter) 0 m with _ | w
  · rw [hw] at h
    simp at h
  · rw [hw] at h
    simp only [Option.map_some', Option.some.injEq] at h
    rw [← h]

/-- C17. The count is printed as a signed number.  The format of line 66 ends in
`PRId64`, so the `uint64_t` count `2^63` of a slot named `add` is printed as
`-9223372036854775808` (and `2^64 - 1` as `-1`), not as its unsigned decimal
value `9223372036854775808`; the rest of the line is as claimed (four spaces,
the name padded to 12 or in full, a tab, a newline), and so is the number for
every count below `2^63`. -/
theorem C17_count_printed_signed :
    format_line (bytes "add") (2 ^ 63) = bytes "    add         \t-9223372036854775808\n" ∧
    decimal (2 ^ 63) = bytes "9223372036854775808" ∧
    format_line (bytes "add") (2 ^ 64 - 1) = bytes "    add         \t-1\n" ∧
    stdout_of (main 2 true true
        (writeU64 (insncounts.allocState (insncounts.fresh 0 (byte ' ') 0 (2 ^ 64 - 1))
          (bytes "add")).mem 0 (2 ^ 63))) =
      some [bytes "    add         \t-9223372036854775808\n"] ∧
    format_line (bytes "amswap_db.d.long") 7 = bytes "    amswap_db.d.long\t7\n" ∧
    (∀ name c, c < 2 ^ 63 →
      format_line name c =
        bytes "    " ++ name ++ List.replicate (12 - name.length) (byte ' ') ++ [byte '\t'] ++
          decimal c ++ [byte '\n']) := by
  refine ⟨by decide, by decide, by decide, by decide, by decide, ?_⟩
  intro name c hc
  have h64 : c % 2 ^ 64 = c := Nat.mod_eq_of_lt (by omega)
  simp only [format_line, print_s12, print_PRId64, h64, if_pos hc, List.append_assoc]

end insncountsctl

/-! ## Installation of the plugin -/

namespace insncounts

theorem strstr_iff (hay needle : List Byte) : strstr hay needle = true ↔ needle <:+: hay := by
  unfold strstr
  rw [List.any_eq_true, List.infix_iff_prefix_suffix]
  constructor
  · rintro ⟨t, ht, hp⟩
    exact ⟨t, List.isPrefixOf_iff_prefix.mp hp, (List.mem_tails t hay).mp ht⟩
  · rintro ⟨t, hp, ht⟩
    exact ⟨t, (List.mem_tails t hay).mpr ht, List.isPrefixOf_iff_prefix.mpr hp⟩

theorem plugin_init_traced_eq (env : Env) (st : State) (t : List Byte) :
    (plugin_init_traced env st t).1 = (plugin_init env st t).1 ∧
      (plugin_init_traced env st t).2.1 = (plugin_init env st t).2 := by
  obtain ⟨a, b, c, d⟩ := env
  unfold plugin_init_traced plugin_init
  cases strstr t (bytes "loongarch64") <;> cases strstr t (bytes "aarch64") <;>
    cases strstr t (bytes "riscv64") <;> cases a <;> cases b <;> cases c <;> cases d <;>
    exact ⟨rfl, rfl⟩

/-- C18. Selection of the slicing rule by `plugin_init`: start column 11 and
terminator tab for every target name containing `loongarch64`; start column 0
and terminator space for every other name containing `aarch64`; start column 18
and terminator space for every other name containing `riscv64`, whatever the
system calls do afterwards.  It returns -1 without reaching `open` for exactly
the names containing none of the three, and then leaves every variable as it
was: there is no fallback rule.  When the system calls succeed, -1 is returned
for exactly these names. -/
theorem C18_rule_selection (env : Env) (st : State) (t : List Byte) :
    (bytes "loongarch64" <:+: t →
      (plugin_init env st t).2.iname_off = 11 ∧ (plugin_init env st t).2.iname_end = byte '\t') ∧
    (¬ bytes "loongarch64" <:+: t → bytes "aarch64" <:+: t →
      (plugin_init env st t).2.iname_off = 0 ∧ (plugin_init env st t).2.iname_end = byte ' ') ∧
    (¬ bytes "loongarch64" <:+: t → ¬ bytes "aarch64" <:+: t → bytes "riscv64" <:+: t →
      (plugin_init env st t).2.iname_off = 18 ∧ (plugin_init env st t).2.iname_end = byte ' ') ∧
    (((plugin_init_traced env st t).1 = -1 ∧ (plugin_init_traced env st t).2.2 = false) ↔
      (¬ bytes "loongarch64" <:+: t ∧ ¬ bytes "aarch64" <:+: t ∧ ¬ bytes "riscv64" <:+: t)) ∧
    ((¬ bytes "loongarch64" <:+: t ∧ ¬ bytes "aarch64" <:+: t ∧ ¬ bytes "riscv64" <:+: t) →
      plugin_init env st t = (-1, st)) ∧
    ((plugin_init okEnv st t).1 = -1 ↔
      (¬ bytes "loongarch64" <:+: t ∧ ¬ bytes "aarch64" <:+: t ∧ ¬ bytes "riscv64" <:+: t)) ∧
    ((plugin_init_traced env st t).1 = (plugin_init env st t).1 ∧
      (plugin_init_traced env st t).2.1 = (plugin_init env st t).2) := by
  obtain ⟨a, b, c, d⟩ := env
  rw [← strstr_iff, ← strstr_iff, ← strstr_iff]
  refine ⟨?_, ?_, ?_, ?_, ?_, ?_, plugin_init_traced_eq _ st t⟩
  · intro h1
    unfold plugin_init
    rw [h1]
    cases a <;> cases b <;> cases c <;> cases d <;> exact ⟨rfl, rfl⟩
  · intro h1 h2
    simp only [Bool.not_eq_true] at h1
    unfold plugin_init
    rw [h1, h2]
    cases a <;> cases b <;> cases c <;> cases d <;> exact ⟨rfl, rfl⟩
  · intro h1 h2 h3
    simp only [Bool.not_eq_true] at h1 h2
    unfold plugin_init
    rw [h1, h2, h3]
    cases a <;> cases b <;> cases c <;> cases d <;> exact ⟨rfl, rfl⟩
  · unfold plugin_init_traced
    cases strstr t (bytes "loongarch64") <;> cases strstr t (bytes "aarch64") <;>
      cases strstr t (bytes "riscv64") <;> cases a <;> cases b <;> cases c <;> cases d <;> simp
  · rintro ⟨h1, h2, h3⟩
    simp only [Bool.not_eq_true] at h1 h2 h3
    unfold plugin_init
    rw [h1, h2, h3]
    rfl
  · unfold plugin_init okEnv
    cases strstr t (bytes "loongarch64") <;> cases strstr t (bytes "aarch64") <;>
      cases strstr t (bytes "riscv64") <;> simp

end insncounts

namespace insncounts

theorem lastValue_cons_hit (key : List Byte) (d : Nat) (o : List Byte) (rest : List (List Byte))
    (h : keyOf o = some key) :
    lastValue key d (o :: rest) = lastValue key (g_ascii_strtoull16 ((valueOf o).getD [])) rest := by
  unfold lastValue
  rw [List.filter_cons_of_pos (by simpa using h), List.getLast?_cons]
  rcases (List.filter (fun o => decide (keyOf o = some key)) rest).getLast? with _ | q
  · rfl
  · rfl

theorem lastValue_cons_miss (key : List Byte) (d : Nat) (o : List Byte) (rest : List (List Byte))
    (h : keyOf o ≠ some key) : lastValue key d (o :: rest) = lastValue key d rest := by
  unfold lastValue
  rw [List.filter_cons_of_neg (by simpa using h)]

theorem withBounds_nil (st : State) : withBounds st [] = st := rfl

theorem parse_options_append (pre : List (List Byte)) :
    ∀ (st : State) (more : List (List Byte)), (∀ o ∈ pre, keyed o = true) →
      parse_options st (pre ++ more) = parse_options (withBounds st pre) more := by
  have hne : bytes "low" ≠ bytes "high" := by decide
  induction pre with
  | nil => intro st more _; rfl
  | cons o pre ih =>
    intro st more hk
    have ho := hk o (by simp)
    have hrest : ∀ x ∈ pre, keyed x = true := fun x hx => hk x (by simp [hx])
    simp only [keyed, Bool.and_eq_true, Bool.or_eq_true, decide_eq_true_eq] at ho
    obtain ⟨hkey, hval⟩ := ho
    obtain ⟨v, hv⟩ := Option.isSome_iff_exists.mp hval
    have hv2 : (g_strsplit_eq o).tail.head? = some v := hv
    rw [List.cons_append]
    rcases hkey with hlow | hhigh
    · have hlow2 : (g_strsplit_eq o).head? = some (bytes "low") := hlow
      have hnh : keyOf o ≠ some (bytes "high") := by
        rw [hlow]
        intro h
        exact hne (Option.some.inj h)
      simp only [parse_options, hlow2, if_true, hv2]
      rw [ih _ more hrest]
      congr 1
      simp only [withBounds, lastValue_cons_hit _ _ _ _ hlow, lastValue_cons_miss _ _ _ _ hnh, hv,
        Option.getD_some]
    · have hhigh2 : (g_strsplit_eq o).head? = some (bytes "high") := hhigh
      have hnl : keyOf o ≠ some (bytes "low") := by
        rw [hhigh]
        intro h
        exact hne (Option.some.inj h).symm
      have hnl2 : ¬ (some (bytes "high") = some (bytes "low")) := fun h =>
        hne (Option.some.inj h).symm
      simp only [parse_options, hhigh2, if_true, hv2, if_neg hnl2]
      rw [ih _ more hrest]
      congr 1
      simp only [withBounds, lastValue_cons_hit _ _ _ _ hhigh, lastValue_cons_miss _ _ _ _ hnl, hv,
        Option.getD_some]

theorem parse_options_keyed (st : State) (argv : List (List Byte))
    (h : ∀ o ∈ argv, keyed o = true) : parse_options st argv = some (true, withBounds st argv) := by
  have := parse_options_append argv st [] h
  rw [List.append_nil] at this
  rw [this]
  rfl

theorem parse_options_bad_key (st : State) (bad : List Byte) (rest : List (List Byte))
    (h1 : keyOf bad ≠ some (bytes "low")) (h2 : keyOf bad ≠ some (bytes "high")) :
    parse_options st (bad :: rest) = some (false, st) := by
  have g1 : ¬ (g_strsplit_eq bad).head? = some (bytes "low") := h1
  have g2 : ¬ (g_strsplit_eq bad).head? = some (bytes "high") := h2
  simp only [parse_options, if_neg g1, if_neg g2]

theorem install_bad_key (env : Env) (st : State) (target : List Byte)
    (pre : List (List Byte)) (bad : List Byte) (rest : List (List Byte))
    (hpre : ∀ o ∈ pre, keyed o = true)
    (h1 : keyOf bad ≠ some (bytes "low")) (h2 : keyOf bad ≠ some (bytes "high")) :
    qemu_plugin_install env st target (pre ++ bad :: rest) = some (-1, withBounds st pre) := by
  unfold qemu_plugin_install
  rw [parse_options_append pre st _ hpre, parse_options_bad_key _ bad rest h1 h2]
  rfl

theorem install_keyed (env : Env) (st : State) (target : List Byte) (argv : List (List Byte))
    (h : ∀ o ∈ argv, keyed o = true) :
    qemu_plugin_install env st target argv =
      some (if (plugin_init env (withBounds st argv) target).1 < 0 then -1 else 0,
        (plugin_init env (withBounds st argv) target).2) := by
  unfold qemu_plugin_install
  rw [parse_options_keyed st argv h]
  simp only [Option.map_some', if_true]
  split <;> rfl

theorem plugin_init_bounds (env : Env) (st : State) (t : List Byte) :
    (plugin_init env st t).2.low_bound = st.low_bound ∧
      (plugin_init env st t).2.high_bound = st.high_bound := by
  obtain ⟨a, b, c, d⟩ := env
  unfold plugin_init
  cases strstr t (bytes "loongarch64") <;> cases strstr t (bytes "aarch64") <;>
    cases strstr t (bytes "riscv64") <;> cases a <;> cases b <;> cases c <;> cases d <;>
    exact ⟨rfl, rfl⟩

end insncounts

namespace insncounts

/-- C14, as the claim states it, fails.  On a supported target the valid option
`low=1000` followed by the option `bogus` makes `qemu_plugin_install` return -1
with `low_bound` already set to `0x1000`, not the 0 it held before the call;
and on the unsupported target `x86_64` the option `high=ff` leaves `high_bound`
at `0xff` although the call returns -1. -/
theorem C14_counterexample :
    ((qemu_plugin_install okEnv boot (bytes "aarch64") [bytes "low=1000", bytes "bogus"]).map
      fun r => (r.1, r.2.low_bound)) = some (-1, 4096) ∧
    boot.low_bound = 0 ∧
    ((qemu_plugin_install okEnv boot (bytes "x86_64") [bytes "high=ff"]).map
      fun r => (r.1, r.2.high_bound)) = some (-1, 255) ∧
    boot.high_bound = 0 := by
  decide

/-- C14, amended.  When `qemu_plugin_install` fails because an option has a key
other than `low` and `high`, or because the target name is unsupported, the
slicing rule, the mapping, the intern table and the growth offsets are as
before the call; the address bounds are those set by the valid `low=` and
`high=` options `pre` that precede the failure (the value of the last
occurrence of each key, the old bound when there is none).  So the whole state
is as before the call when no valid option precedes the failure. -/
theorem C14_failure_keeps_rule (env : Env) (st : State) (target : List Byte)
    (pre : List (List Byte)) (hpre : ∀ o ∈ pre, keyed o = true) :
    (∀ bad rest, keyOf bad ≠ some (bytes "low") → keyOf bad ≠ some (bytes "high") →
      ∃ s1, qemu_plugin_install env st target (pre ++ bad :: rest) = some (-1, s1) ∧
        s1.iname_off = st.iname_off ∧ s1.iname_end = st.iname_end ∧ s1.mem = st.mem ∧
        s1.insns = st.insns ∧ s1.shm_count_off = st.shm_count_off ∧
        s1.shm_iname_off = st.shm_iname_off ∧
        s1.low_bound = lastValue (bytes "low") st.low_bound pre ∧
        s1.high_bound = lastValue (bytes "high") st.high_bound pre) ∧
    ((¬ bytes "loongarch64" <:+: target ∧ ¬ bytes "aarch64" <:+: target ∧
        ¬ bytes "riscv64" <:+: target) →
      ∃ s1, qemu_plugin_install env st target pre = some (-1, s1) ∧
        s1.iname_off = st.iname_off ∧ s1.iname_end = st.iname_end ∧ s1.mem = st.mem ∧
        s1.insns = st.insns ∧ s1.shm_count_off = st.shm_count_off ∧
        s1.shm_iname_off = st.shm_iname_off ∧
        s1.low_bound = lastValue (bytes "low") st.low_bound pre ∧
        s1.high_bound = lastValue (bytes "high") st.high_bound pre) ∧
    (∀ bad rest, keyOf bad ≠ some (bytes "low") → keyOf bad ≠ some (bytes "high") →
      qemu_plugin_install env st target (bad :: rest) = some (-1, st)) ∧
    ((¬ bytes "loongarch64" <:+: target ∧ ¬ bytes "aarch64" <:+: target ∧
        ¬ bytes "riscv64" <:+: target) →
      qemu_plugin_install env st target [] = some (-1, st)) := by
  have hun : (¬ bytes "loongarch64" <:+: target ∧ ¬ bytes "aarch64" <:+: target ∧
      ¬ bytes "riscv64" <:+: target) → ∀ s : State, plugin_init env s target = (-1, s) := by
    rw [← strstr_iff, ← strstr_iff, ← strstr_iff]
    rintro ⟨h1, h2, h3⟩ s
    simp only [Bool.not_eq_true] at h1 h2 h3
    unfold plugin_init
    rw [h1, h2, h3]
    rfl
  refine ⟨?_, ?_, ?_, ?_⟩
  · intro bad rest h1 h2
    exact ⟨withBounds st pre, install_bad_key env st target pre bad rest hpre h1 h2,
      rfl, rfl, rfl, rfl, rfl, rfl, rfl, rfl⟩
  · intro h
    refine ⟨withBounds st pre, ?_, rfl, rfl, rfl, rfl, rfl, rfl, rfl, rfl⟩
    rw [install_keyed env st target pre hpre, hun h]
    rfl
  · intro bad rest h1 h2
    exact install_bad_key env st target [] bad rest (by simp) h1 h2
  · intro h
    rw [install_keyed env st target [] (by simp), withBounds_nil, hun h]
    rfl

/-- Witness of C14: after `low=1000` the option `bogus` fails the installation
and the state differs from the initial one only in `low_bound`. -/
theorem C14_witness :
    ∃ s1, qemu_plugin_install okEnv boot (bytes "aarch64") ([bytes "low=1000"] ++ bytes "bogus" :: []) =
        some (-1, s1) ∧
      s1.iname_off = boot.iname_off ∧ s1.iname_end = boot.iname_end ∧ s1.mem = boot.mem ∧
      s1.insns = boot.insns ∧ s1.shm_count_off = boot.shm_count_off ∧
      s1.shm_iname_off = boot.shm_iname_off ∧
      s1.low_bound = 4096 ∧ s1.high_bound = 0 :=
  (C14_failure_keeps_rule okEnv boot (bytes "aarch64") [bytes "low=1000"] (by decide)).1
    (bytes "bogus") [] (by decide) (by decide)

/-- C15, as the claim states it, fails.  The values `zz` and `12xyz` are not
hexadecimal numbers, yet `qemu_plugin_install` returns 0: the options are
accepted, with the bounds 0 and `0x12` read from the longest hexadecimal
prefix of the value. -/
theorem C15_counterexample :
    ((qemu_plugin_install okEnv boot (bytes "aarch64") [bytes "low=zz"]).map
      fun r => (r.1, r.2.low_bound)) = some (0, 0) ∧
    ((qemu_plugin_install okEnv boot (bytes "aarch64") [bytes "high=12xyz"]).map
      fun r => (r.1, r.2.high_bound)) = some (0, 18) := by
  decide

/-- C15, amended.  After options `pre` with key `low` or `high` and a value, an
option whose key (the text before the first `=`) is neither `low` nor `high`
makes `qemu_plugin_install` return -1 with the store not initialised (mapping,
table, offsets and slicing rule as before).  A list `pre` of such keyed
options is parsed to its end, and then `low_bound` and `high_bound` hold what
`g_ascii_strtoull` reads, base 16, from the value of the last occurrence of
each key (the old bound for a key that does not occur), whether or not
`plugin_init` then succeeds; the value is not checked to be a hexadecimal
number. -/
theorem C15_bad_key_is_fatal (env : Env) (st : State) (target : List Byte)
    (pre : List (List Byte)) (hpre : ∀ o ∈ pre, keyed o = true) :
    (∀ bad rest, keyOf bad ≠ some (bytes "low") → keyOf bad ≠ some (bytes "high") →
      ∃ s1, qemu_plugin_install env st target (pre ++ bad :: rest) = some (-1, s1) ∧
        s1.mem = st.mem ∧ s1.insns = st.insns ∧ s1.shm_count_off = st.shm_count_off ∧
        s1.shm_iname_off = st.shm_iname_off ∧ s1.iname_off = st.iname_off ∧
        s1.iname_end = st.iname_end) ∧
    parse_options st pre = some (true, withBounds st pre) ∧
    (∃ rc s2, qemu_plugin_install env st target pre = some (rc, s2) ∧
      rc = (if (plugin_init env (withBounds st pre) target).1 < 0 then -1 else 0) ∧
      s2.low_bound = lastValue (bytes "low") st.low_bound pre ∧
      s2.high_bound = lastValue (bytes "high") st.high_bound pre) := by
  refine ⟨?_, parse_options_keyed st pre hpre, ?_⟩
  · intro bad rest h1 h2
    exact ⟨withBounds st pre, install_bad_key env st target pre bad rest hpre h1 h2,
      rfl, rfl, rfl, rfl, rfl, rfl⟩
  · have hb := plugin_init_bounds env (withBounds st pre) target
    exact ⟨_, _, install_keyed env st target pre hpre, rfl, hb.1, hb.2⟩

/-- Witness of C15: of `low=10`, `high=ffff`, `low=1000` the last `low` counts,
and the bounds are `0x1000` and `0xffff`. -/
theorem C15_witness :
    ∃ rc s2, qemu_plugin_install okEnv boot (bytes "aarch64")
        [bytes "low=10", bytes "high=ffff", bytes "low=1000"] = some (rc, s2) ∧
      rc = 0 ∧
      s2.low_bound = 4096 ∧ s2.high_bound = 65535 :=
  (C15_bad_key_is_fatal okEnv boot (bytes "aarch64")
    [bytes "low=10", bytes "high=ffff", bytes "low=1000"] (by decide)).2.2

end insncounts

/-! ## Layout and stability of the store -/

namespace insncounts

theorem firstSeen_append (acc xs ys : List (List Byte)) :
    firstSeen acc (xs ++ ys) = firstSeen (firstSeen acc xs) ys := by
  induction xs generalizing acc with
  | nil => rfl
  | cons x rest ih =>
    simp only [List.cons_append, firstSeen]
    exact ih _

theorem resolveAll_frame (toks : List (List Byte)) :
    ∀ (s : State) (names : List (List Byte)), Inv s names → (∀ t ∈ toks, (0 : Byte) ∉ t) →
      16 * (firstSeen names toks).length ≤ SHM_COUNT_SIZE →
      totalBytes (firstSeen names toks) ≤ SHM_INAME_SIZE →
      ∃ t, resolveAll s toks = some t ∧ Inv t (firstSeen names toks) ∧
        (∀ x, x < s.shm_count_off → t.mem x = s.mem x) ∧
        (∀ x, SHM_COUNT_SIZE ≤ x → x < s.shm_iname_off → t.mem x = s.mem x) := by
  have hC : SHM_COUNT_SIZE = 131072 := rfl
  induction toks with
  | nil => intro s names inv _ _ _; exact ⟨s, rfl, inv, fun _ _ => rfl, fun _ _ _ => rfl⟩
  | cons t rest ih =>
    intro s names inv hn hc hb
    have hn2 : ∀ x ∈ rest, (0 : Byte) ∉ x := fun x hx => hn x (by simp [hx])
    simp only [firstSeen] at hc hb ⊢
    by_cases h : t ∈ names
    · rw [if_pos h] at hc hb ⊢
      obtain ⟨k, hk, rfl⟩ := List.getElem_of_mem h
      simp only [resolveAll, resolve_seen inv k hk, Option.some_bind]
      exact ih s names inv hn2 hc hb
    · rw [if_neg h] at hc hb ⊢
      have l1 := firstSeen_length_le (names ++ [t]) rest
      have l2 := firstSeen_totalBytes_le (names ++ [t]) rest
      rw [List.length_append] at l1
      rw [totalBytes_append] at l2
      simp only [List.length_singleton] at l1
      simp only [totalBytes, List.map_cons, List.map_nil, List.sum_cons, List.sum_nil] at l2
      have hb2 : totalBytes (firstSeen (names ++ [t]) rest) ≤ SHM_INAME_SIZE := hb
      simp only [totalBytes] at hb2
      have hc1 : 16 * (names.length + 1) ≤ SHM_COUNT_SIZE := by omega
      have hb1 : totalBytes names + (t.length + 1) ≤ SHM_INAME_SIZE := by
        simp only [totalBytes]
        omega
      have ht0 := hn t (by simp)
      simp only [resolveAll, resolve_new inv t ht0 h hc1 hb1, Option.some_bind]
      obtain ⟨u, hu, hinv, f1, f2⟩ := ih (allocState s t) (names ++ [t])
        (inv_alloc inv t ht0 h hc1 hb1) hn2 hc hb
      have hco := inv.count_off
      have hio := inv.iname_off
      refine ⟨u, hu, hinv, ?_, ?_⟩
      · intro x hx
        rw [f1 x (by simp only [allocState]; omega)]
        exact allocMem_outside s t x (by omega) (by omega)
      · intro x hx1 hx2
        rw [f2 x hx1 (by simp only [allocState]; omega)]
        exact allocMem_outside s t x (by omega) (by omega)

/-- C11. Layout invariant of the store.  After any sequence of translations
and executions from a fresh store, without fault and within the capacity of
both regions, the count growth offset is a multiple of 16; every slot below it
belongs to a mnemonic `m` (the table maps `m` to it) and has a nonzero
`name_offset` that lies in the name region, with the bytes of `m` from that
offset on and the terminating NUL still before the name growth offset, so that
the C string read there is exactly `m`; and every slot of the count region at
or after the count growth offset has `name_offset` 0. -/
theorem C11_store_layout (o : Nat) (e : Byte) (lo hi : Nat) (evs : List Event) (sys1 : Sys)
    (hrun : run ⟨fresh o e lo hi, []⟩ evs = some sys1)
    (hc : sys1.st.shm_count_off ≤ SHM_COUNT_SIZE)
    (hb : sys1.st.shm_iname_off ≤ SHM_TOTAL_SIZE) :
    16 ∣ sys1.st.shm_count_off ∧
    (∀ k, 16 * k + 16 ≤ sys1.st.shm_count_off →
      ∃ m, (0 : Byte) ∉ m ∧
        g_hash_table_lookup sys1.st.mem sys1.st.insns m = some (16 * k) ∧
        readU64 sys1.st.mem (16 * k + 8) ≠ 0 ∧
        SHM_COUNT_SIZE ≤ readU64 sys1.st.mem (16 * k + 8) ∧
        readU64 sys1.st.mem (16 * k + 8) + m.length < sys1.st.shm_iname_off ∧
        readBytes sys1.st.mem (readU64 sys1.st.mem (16 * k + 8)) m.length = m ∧
        sys1.st.mem (readU64 sys1.st.mem (16 * k + 8) + m.length) = 0 ∧
        readCStr sys1.st.mem (readU64 sys1.st.mem (16 * k + 8)) = some m) ∧
    (∀ k, sys1.st.shm_count_off ≤ 16 * k → 16 * k + 16 ≤ SHM_COUNT_SIZE →
      readU64 sys1.st.mem (16 * k + 8) = 0) := by
  have hC : SHM_COUNT_SIZE = 131072 := rfl
  have hT : SHM_TOTAL_SIZE = 262144 := rfl
  obtain ⟨names, I⟩ := run_inv (fresh o e lo hi) evs _ [] [] (fun _ => 0) sys1
    (sysInv_fresh o e lo hi) hrun hc hb
  have inv := I.inv
  have hco := inv.count_off
  have hio := inv.iname_off
  refine ⟨⟨names.length, hco⟩, ?_, ?_⟩
  · intro k hk
    have hk2 : k < names.length := by omega
    have h0 : (0 : Byte) ∉ names[k] := inv.nonul _ (List.getElem_mem hk2)
    have hoff := inv.slot_off k hk2
    have hge := nameOff_ge names k
    have hend := nameOff_end_le names k hk2
    have hat := inv.name_at k hk2
    have hbytes := (readBytes_eq_iff sys1.st.mem (nameOff names k) (names[k] ++ [0])).mp
      (by simpa using hat)
    refine ⟨names[k], h0, inv_lookup_seen inv k hk2, ?_, ?_, ?_, ?_, ?_, ?_⟩
    · rw [hoff]
      omega
    · rw [hoff]
      exact hge
    · rw [hoff, hio]
      omega
    · rw [hoff, readBytes_eq_iff]
      intro i hi
      have := hbytes i (by simp; omega)
      rw [this, List.getElem_append_left hi]
    · rw [hoff]
      have := hbytes names[k].length (by simp)
      rw [this]
      simp
    · rw [hoff]
      exact readCStr_eq _ _ h0 _ (by omega) hat
  · intro k h1 h2
    apply readU64_zero_of_zero
    intro x hx1 hx2
    exact inv.unused x (by omega) (by omega)

/-- Witness of C11: the store after `twoAdds`. -/
theorem C11_witness :
    16 ∣ afterTwoAdds.st.shm_count_off ∧
    (∀ k, 16 * k + 16 ≤ afterTwoAdds.st.shm_count_off →
      readU64 afterTwoAdds.st.mem (16 * k + 8) ≠ 0) ∧
    readCStr afterTwoAdds.st.mem (readU64 afterTwoAdds.st.mem 8) = some (bytes "add") ∧
    readCStr afterTwoAdds.st.mem (readU64 afterTwoAdds.st.mem 24) = some (bytes "sub") ∧
    readU64 afterTwoAdds.st.mem 40 = 0 := by
  have h := C11_store_layout 0 (byte ' ') 0 (2 ^ 64 - 1) twoAdds afterTwoAdds
    (eq_some_getD _ _ (by decide)) (by decide) (by decide)
  refine ⟨h.1, ?_, by decide, by decide, h.2.2 2 (by decide) (by decide)⟩
  intro k hk
  obtain ⟨m, _, _, hne, _⟩ := h.2.1 k hk
  exact hne

end insncounts

namespace insncounts

/-- C19. Stable slot references.  On a fresh store and within capacity, let
the tokens `toks1` be resolved, then `m` (its first resolve after `toks1`,
allocating when `m` is new), then the tokens `toks2`.  Each of these steps
changes no byte below the count growth offset it starts from (the `count` and
`name_offset` fields of the slots allocated before it) and no byte of the name
region below the name growth offset it starts from (the names written before
it); and a resolve of `m` after all of them returns the slot offset of the
first resolve and leaves the whole state, mapping and growth offsets included,
as it is. -/
theorem C19_stable_slots (o : Nat) (e : Byte) (lo hi : Nat) (toks1 : List (List Byte))
    (m : List Byte) (toks2 : List (List Byte))
    (hn : ∀ t ∈ toks1 ++ m :: toks2, (0 : Byte) ∉ t)
    (hc : 16 * (firstSeen [] (toks1 ++ m :: toks2)).length ≤ SHM_COUNT_SIZE)
    (hb : totalBytes (firstSeen [] (toks1 ++ m :: toks2)) ≤ SHM_INAME_SIZE) :
    ∃ s1 s2 s3 slot, resolveAll (fresh o e lo hi) toks1 = some s1 ∧
      resolve s1 m = some (s2, slot) ∧ resolveAll s2 toks2 = some s3 ∧
      (∀ x, x < s1.shm_count_off → s2.mem x = s1.mem x) ∧
      (∀ x, SHM_COUNT_SIZE ≤ x → x < s1.shm_iname_off → s2.mem x = s1.mem x) ∧
      (∀ x, x < s2.shm_count_off → s3.mem x = s2.mem x) ∧
      (∀ x, SHM_COUNT_SIZE ≤ x → x < s2.shm_iname_off → s3.mem x = s2.mem x) ∧
      resolve s3 m = some (s3, slot) := by
  have hn1 : ∀ t ∈ toks1, (0 : Byte) ∉ t := fun t ht => hn t (by simp [ht])
  have hnm : ∀ t ∈ [m], (0 : Byte) ∉ t := fun t ht => hn t (by
    simp only [List.mem_singleton] at ht
    simp [ht])
  have hn2 : ∀ t ∈ toks2, (0 : Byte) ∉ t := fun t ht => hn t (by simp [ht])
  have hsplit : firstSeen [] (toks1 ++ m :: toks2) =
      firstSeen (firstSeen (firstSeen [] toks1) [m]) toks2 := by
    rw [show toks1 ++ m :: toks2 = toks1 ++ ([m] ++ toks2) by simp, firstSeen_append,
      firstSeen_append]
  rw [hsplit] at hc hb
  have a1 := firstSeen_length_le (firstSeen (firstSeen [] toks1) [m]) toks2
  have a2 := firstSeen_totalBytes_le (firstSeen (firstSeen [] toks1) [m]) toks2
  have a3 := firstSeen_length_le (firstSeen [] toks1) [m]
  have a4 := firstSeen_totalBytes_le (firstSeen [] toks1) [m]
  obtain ⟨s1, hs1, inv1, _, _⟩ := resolveAll_frame toks1 (fresh o e lo hi) []
    (inv_fresh o e lo hi) hn1 (by omega) (by omega)
  obtain ⟨s2, hs2, inv2, f1, f2⟩ := resolveAll_frame [m] s1 _ inv1 hnm (by omega) (by omega)
  obtain ⟨s3, hs3, inv3, g1, g2⟩ := resolveAll_frame toks2 s2 _ inv2 hn2 hc hb
  have hmem : m ∈ firstSeen (firstSeen [] toks1) [m] := by
    rw [mem_firstSeen]
    simp
  obtain ⟨k, hk, hkm⟩ := List.getElem_of_mem hmem
  obtain ⟨ext, hext⟩ := firstSeen_prefix (firstSeen (firstSeen [] toks1) [m]) toks2
  have hk3 : k < (firstSeen (firstSeen (firstSeen [] toks1) [m]) toks2).length := by omega
  have hkm3 : (firstSeen (firstSeen (firstSeen [] toks1) [m]) toks2)[k] = m := by
    simp only [hext]
    rw [List.getElem_append_left hk]
    exact hkm
  have hr3 := resolve_seen inv3 k hk3
  rw [hkm3] at hr3
  have hr2 := resolve_seen inv2 k hk
  rw [hkm] at hr2
  rcases hres : resolve s1 m with _ | r
  · simp [resolveAll, hres] at hs2
  · simp only [resolveAll, hres, Option.some_bind, Option.some.injEq] at hs2
    have hslot : r.2 = 16 * k := by
      by_cases hin : m ∈ firstSeen [] toks1
      · obtain ⟨j, hj, hjm⟩ := List.getElem_of_mem hin
        have hrj := resolve_seen inv1 j hj
        rw [hjm, hres] at hrj
        have hfs : firstSeen (firstSeen [] toks1) [m] = firstSeen [] toks1 := by
          simp only [firstSeen, if_pos hin]
        have hjk : j = k := by
          apply (List.Nodup.getElem_inj_iff inv1.nodup).mp
          rw [hjm]
          simp only [hfs] at hkm
          exact hkm.symm
        rw [← hjk]
        exact congrArg Prod.snd (Option.some.inj hrj)
      · have hfs : firstSeen (firstSeen [] toks1) [m] = firstSeen [] toks1 ++ [m] := by
          simp only [firstSeen, if_neg hin]
        have hlen : (firstSeen (firstSeen [] toks1) [m]).length = (firstSeen [] toks1).length + 1 := by
          rw [hfs]
          simp
        have htb : totalBytes (firstSeen (firstSeen [] toks1) [m]) =
            totalBytes (firstSeen [] toks1) + (m.length + 1) := by
          rw [hfs, totalBytes_append]
          simp [totalBytes]
        have hrn := resolve_new inv1 m (hn m (by simp)) hin (by omega) (by omega)
        rw [hres] at hrn
        have hkk : k = (firstSeen [] toks1).length := by
          by_contra hne
          have hk1 : k < (firstSeen [] toks1).length := by omega
          apply hin
          have : (firstSeen [] toks1)[k] = m := by
            rw [← hkm]
            simp only [hfs]
            rw [List.getElem_append_left hk1]
          exact this ▸ List.getElem_mem hk1
        rw [hkk]
        exact congrArg Prod.snd (Option.some.inj hrn)
    refine ⟨s1, s2, s3, 16 * k, hs1, ?_, hs3, f1, f2, g1, g2, hr3⟩
    rw [← hs2, ← hslot]
    exact hres

/-- Witness of C19: `add`, `sub`, then `mul` (new), then `add`, `xor`. -/
theorem C19_witness :
    ∃ s1 s2 s3 slot, resolveAll (fresh 0 (byte ' ') 0 (2 ^ 64 - 1)) [bytes "add", bytes "sub"] = some s1 ∧
      resolve s1 (bytes "mul") = some (s2, slot) ∧
      resolveAll s2 [bytes "add", bytes "xor"] = some s3 ∧
      (∀ x, x < s1.shm_count_off → s2.mem x = s1.mem x) ∧
      (∀ x, SHM_COUNT_SIZE ≤ x → x < s1.shm_iname_off → s2.mem x = s1.mem x) ∧
      (∀ x, x < s2.shm_count_off → s3.mem x = s2.mem x) ∧
      (∀ x, SHM_COUNT_SIZE ≤ x → x < s2.shm_iname_off → s3.mem x = s2.mem x) ∧
      resolve s3 (bytes "mul") = some (s3, slot) :=
  C19_stable_slots 0 (byte ' ') 0 (2 ^ 64 - 1) [bytes "add", bytes "sub"] (bytes "mul")
    [bytes "add", bytes "xor"] (by decide) (by decide) (by decide)

end insncounts

/-! ## Region separation -/

namespace insncountsctl

theorem walk_slots_bound (reset : Bool) (n : Nat) :
    ∀ (k : Nat) (m : Mem), (walk_slots reset n (16 * k) m).length ≤ n ∧
      ∀ off ∈ walk_slots reset n (16 * k) m, off + 16 ≤ 16 * (k + n) := by
  induction n with
  | zero =>
    intro k m
    simp [walk_slots]
  | succ n ih =>
    intro k m
    have h16 : 16 * k + sizeof_Counter = 16 * (k + 1) := by
      simp only [sizeof_Counter]
      omega
    simp only [walk_slots, h16]
    by_cases hz : readU64 m (16 * k + 8) = 0
    · rw [if_pos hz]
      simp
      omega
    · rw [if_neg hz]
      obtain ⟨h1, h2⟩ := ih (k + 1) (if reset = true then writeU64 m (16 * k) 0 else m)
      constructor
      · simp only [List.length_cons]
        omega
      · intro off hoff
        rcases List.mem_cons.mp hoff with h | h
        · omega
        · have := h2 off h
          omega

end insncountsctl

namespace insncounts

theorem allocate_slot_writes_bound {s : State} {names : List (List Byte)} (inv : Inv s names)
    (name : List Byte) (hc : 16 * (names.length + 1) ≤ SHM_COUNT_SIZE)
    (hb : totalBytes names + (name.length + 1) ≤ SHM_INAME_SIZE) :
    ∀ w ∈ allocate_slot_writes s name,
      (w.1 = false → w.2.1 + w.2.2 ≤ SHM_COUNT_SIZE) ∧
      (w.1 = true → SHM_COUNT_SIZE ≤ w.2.1 ∧ w.2.1 + w.2.2 ≤ SHM_TOTAL_SIZE) := by
  have hC : SHM_COUNT_SIZE = 131072 := rfl
  have hI : SHM_INAME_SIZE = 131072 := rfl
  have hT : SHM_TOTAL_SIZE = 262144 := rfl
  have hco := inv.count_off
  have hio := inv.iname_off
  intro w hw
  simp only [allocate_slot_writes, List.mem_cons, List.mem_singleton, List.not_mem_nil,
    or_false] at hw
  rcases hw with h | h | h
  · rw [h]
    simp
    omega
  · rw [h]
    simp
    omega
  · rw [h]
    simp
    omega

theorem resolveAll_writes_bound (toks : List (List Byte)) :
    ∀ (s : State) (names : List (List Byte)), Inv s names → (∀ t ∈ toks, (0 : Byte) ∉ t) →
      16 * (firstSeen names toks).length ≤ SHM_COUNT_SIZE →
      totalBytes (firstSeen names toks) ≤ SHM_INAME_SIZE →
      ∀ w ∈ resolveAll_writes s toks,
        (w.1 = false → w.2.1 + w.2.2 ≤ SHM_COUNT_SIZE) ∧
        (w.1 = true → SHM_COUNT_SIZE ≤ w.2.1 ∧ w.2.1 + w.2.2 ≤ SHM_TOTAL_SIZE) := by
  have hC : SHM_COUNT_SIZE = 131072 := rfl
  have hI : SHM_INAME_SIZE = 131072 := rfl
  have hT : SHM_TOTAL_SIZE = 262144 := rfl
  induction toks with
  | nil => intro s names _ _ _ _ w hw; simp [resolveAll_writes] at hw
  | cons t rest ih =>
    intro s names inv hn hc hb
    have hn2 : ∀ x ∈ rest, (0 : Byte) ∉ x := fun x hx => hn x (by simp [hx])
    simp only [firstSeen] at hc hb
    by_cases h : t ∈ names
    · rw [if_pos h] at hc hb
      obtain ⟨k, hk, rfl⟩ := List.getElem_of_mem h
      simp only [resolveAll_writes, inv_lookup_seen inv k hk]
      exact ih s names inv hn2 hc hb
    · rw [if_neg h] at hc hb
      have l1 := firstSeen_length_le (names ++ [t]) rest
      have l2 := firstSeen_totalBytes_le (names ++ [t]) rest
      rw [List.length_append] at l1
      rw [totalBytes_append] at l2
      simp only [List.length_singleton] at l1
      simp only [totalBytes, List.map_cons, List.map_nil, List.sum_cons, List.sum_nil] at l2
      have hb2 : totalBytes (firstSeen (names ++ [t]) rest) ≤ SHM_INAME_SIZE := hb
      simp only [totalBytes] at hb2
      have hc1 : 16 * (names.length + 1) ≤ SHM_COUNT_SIZE := by omega
      have hb1 : totalBytes names + (t.length + 1) ≤ SHM_INAME_SIZE := by
        simp only [totalBytes]
        omega
      have ht0 := hn t (by simp)
      have hal : allocate_slot s t = some (allocState s t, s.shm_count_off) :=
        allocate_slot_eq s t (by rw [inv.count_off]; omega) (by rw [inv.iname_off]; omega)
      simp only [resolveAll_writes, inv_lookup_new inv t ht0 h, hal]
      intro w hw
      rcases List.mem_append.mp hw with h1 | h1
      · exact allocate_slot_writes_bound inv t hc1 hb1 w h1
      · exact ih (allocState s t) (names ++ [t]) (inv_alloc inv t ht0 h hc1 hb1) hn2 hc hb w h1

theorem resolveAll_writes_length (toks : List (List Byte)) :
    ∀ (s : State) (names : List (List Byte)), Inv s names → (∀ t ∈ toks, (0 : Byte) ∉ t) →
      toks.Nodup → (∀ t ∈ toks, t ∉ names) →
      16 * (names.length + toks.length) ≤ SHM_COUNT_SIZE →
      totalBytes names + totalBytes toks ≤ SHM_INAME_SIZE →
      (resolveAll_writes s toks).length = 3 * toks.length := by
  have hC : SHM_COUNT_SIZE = 131072 := rfl
  have hI : SHM_INAME_SIZE = 131072 := rfl
  have hT : SHM_TOTAL_SIZE = 262144 := rfl
  induction toks with
  | nil => intro s names _ _ _ _ _ _; rfl
  | cons t rest ih =>
    intro s names inv hn hnd hdis hc hb
    have hn2 : ∀ x ∈ rest, (0 : Byte) ∉ x := fun x hx => hn x (by simp [hx])
    rw [List.nodup_cons] at hnd
    have h : t ∉ names := hdis t (by simp)
    have ht0 := hn t (by simp)
    simp only [List.length_cons] at hc
    have htb : totalBytes (t :: rest) = (t.length + 1) + totalBytes rest := by
      simp [totalBytes]
    rw [htb] at hb
    have hc1 : 16 * (names.length + 1) ≤ SHM_COUNT_SIZE := by omega
    have hb1 : totalBytes names + (t.length + 1) ≤ SHM_INAME_SIZE := by omega
    have hal : allocate_slot s t = some (allocState s t, s.shm_count_off) :=
      allocate_slot_eq s t (by rw [inv.count_off]; omega) (by rw [inv.iname_off]; omega)
    simp only [resolveAll_writes, inv_lookup_new inv t ht0 h, hal, List.length_append,
      List.length_cons]
    rw [ih (allocState s t) (names ++ [t]) (inv_alloc inv t ht0 h hc1 hb1) hn2 hnd.2]
    · simp [allocate_slot_writes]
      omega
    · intro x hx hmem
      rcases List.mem_append.mp hmem with h1 | h1
      · exact hdis x (by simp [hx]) h1
      · simp only [List.mem_singleton] at h1
        rw [h1] at hx
        exact hnd.1 hx
    · simp only [List.length_append, List.length_singleton]
      omega
    · rw [totalBytes_append]
      simp only [totalBytes, List.map_cons, List.map_nil, List.sum_cons, List.sum_nil] at hb ⊢
      omega

theorem names8192_length : names8192.length = 8192 := by
  simp [names8192]

theorem names8192_nodup : names8192.Nodup := by
  unfold names8192
  apply List.Nodup.map_on _ (List.nodup_range 8192)
  intro x hx y hy h
  rw [List.mem_range] at hx hy
  simp only [mnemonic8192, List.cons.injEq, and_true] at h
  obtain ⟨h1, h2⟩ := h
  have g1 := congrArg Fin.val h1
  have g2 := congrArg Fin.val h2
  simp only [Fin.ofNat] at g1 g2
  omega

theorem names8192_nonul : ∀ t ∈ names8192, (0 : Byte) ∉ t := by
  intro t ht
  simp only [names8192, List.mem_map, List.mem_range] at ht
  obtain ⟨k, hk, rfl⟩ := ht
  simp only [mnemonic8192, List.mem_cons, List.mem_singleton, List.not_mem_nil, or_false, not_or]
  constructor
  · intro h
    have g := congrArg Fin.val h
    simp only [Fin.ofNat] at g
    change 0 = (k / 128 + 1) % 256 at g
    omega
  · intro h
    have g := congrArg Fin.val h
    simp only [Fin.ofNat] at g
    change 0 = (k % 128 + 1) % 256 at g
    omega

theorem totalBytes_of_length_two (names : List (List Byte)) (h : ∀ t ∈ names, t.length = 2) :
    totalBytes names = 3 * names.length := by
  induction names with
  | nil => rfl
  | cons t rest ih =>
    have ht := h t (by simp)
    have hr := ih (fun x hx => h x (by simp [hx]))
    simp only [totalBytes, List.map_cons, List.sum_cons, List.length_cons] at hr ⊢
    omega

theorem names8192_totalBytes : totalBytes names8192 = 24576 := by
  rw [totalBytes_of_length_two, names8192_length]
  intro t ht
  simp only [names8192, List.mem_map, List.mem_range] at ht
  obtain ⟨k, _, rfl⟩ := ht
  rfl

/-- C20. Region separation within capacity.  When at most 8192 distinct
mnemonics whose names with their NULs take at most 131072 bytes are sighted
for the first time in order on a fresh store, no store faults, every one of
the `3 * N` stores lies inside the mapping, the slot stores inside
`[0, 131072)` and the name copies inside `[131072, 262144)`, so neither kind
overwrites the other region; and the report run of the reader prints all `N`
names.  The loop of the reader examines at most 8192 slots, each inside the
count region, whatever the mapping holds. -/
theorem C20_region_separation (o : Nat) (e : Byte) (lo hi : Nat) (names : List (List Byte))
    (hnd : names.Nodup) (hn : ∀ t ∈ names, (0 : Byte) ∉ t)
    (hc : names.length ≤ 8192) (hb : totalBytes names ≤ 131072) :
    ∃ s entries, resolveAll (fresh o e lo hi) names = some s ∧
      (resolveAll_writes (fresh o e lo hi) names).length = 3 * names.length ∧
      (∀ w ∈ resolveAll_writes (fresh o e lo hi) names,
        (w.1 = false → w.2.1 + w.2.2 ≤ 131072) ∧
        (w.1 = true → 131072 ≤ w.2.1 ∧ w.2.1 + w.2.2 ≤ 262144)) ∧
      insncountsctl.main 2 true true s.mem = some (0, s.mem, entries) ∧
      entries.map Prod.fst = names ∧ entries.length = names.length ∧
      (∀ reset m,
        (insncountsctl.walk_slots reset (SHM_COUNT_SIZE / sizeof_Counter) 0 m).length ≤ 8192 ∧
        ∀ off ∈ insncountsctl.walk_slots reset (SHM_COUNT_SIZE / sizeof_Counter) 0 m,
          off + 16 ≤ 131072) := by
  have hfs : firstSeen [] names = names := by
    rw [firstSeen_nodup [] List.nodup_nil names hnd (by simp)]
    simp
  have hC : SHM_COUNT_SIZE = 131072 := rfl
  have hI : SHM_INAME_SIZE = 131072 := rfl
  have hT : SHM_TOTAL_SIZE = 262144 := rfl
  obtain ⟨s, hs, inv, _⟩ := resolveAll_inv names (fresh o e lo hi) [] (inv_fresh o e lo hi) hn
    (by rw [hfs]; omega) (by rw [hfs]; omega)
  rw [hfs] at inv
  have hm := insncountsctl.main_report (inv_layout inv)
  have hl : (countsFrom s.mem 0 names.length).length = names.length := by simp [countsFrom]
  refine ⟨s, _, hs, ?_, ?_, hm, ?_, ?_, ?_⟩
  · exact resolveAll_writes_length names (fresh o e lo hi) [] (inv_fresh o e lo hi) hn hnd
      (by simp) (by simp; omega) (by simp [totalBytes] at hb ⊢; omega)
  · have := resolveAll_writes_bound names (fresh o e lo hi) [] (inv_fresh o e lo hi) hn
      (by rw [hfs]; omega) (by rw [hfs]; omega)
    rw [hC, hT] at this
    exact this
  · rw [List.map_fst_zip]
    omega
  · rw [List.length_zip, hl, Nat.min_self]
  · intro reset m
    have h8 : SHM_COUNT_SIZE / sizeof_Counter = 8192 := by decide
    have := insncountsctl.walk_slots_bound reset 8192 0 m
    simp only [Nat.mul_zero, Nat.zero_add] at this
    rw [h8]
    exact this

/-- Witness of C20: the bound is tight, 8192 distinct mnemonics fill the count
region exactly and are all reported. -/
theorem C20_witness :
    names8192.length = 8192 ∧ 16 * names8192.length = SHM_COUNT_SIZE ∧
    ∃ s entries, resolveAll (fresh 0 (byte ' ') 0 (2 ^ 64 - 1)) names8192 = some s ∧
      (resolveAll_writes (fresh 0 (byte ' ') 0 (2 ^ 64 - 1)) names8192).length =
        3 * names8192.length ∧
      (∀ w ∈ resolveAll_writes (fresh 0 (byte ' ') 0 (2 ^ 64 - 1)) names8192,
        (w.1 = false → w.2.1 + w.2.2 ≤ 131072) ∧
        (w.1 = true → 131072 ≤ w.2.1 ∧ w.2.1 + w.2.2 ≤ 262144)) ∧
      insncountsctl.main 2 true true s.mem = some (0, s.mem, entries) ∧
      entries.map Prod.fst = names8192 ∧ entries.length = names8192.length ∧
      (∀ reset m,
        (insncountsctl.walk_slots reset (SHM_COUNT_SIZE / sizeof_Counter) 0 m).length ≤ 8192 ∧
        ∀ off ∈ insncountsctl.walk_slots reset (SHM_COUNT_SIZE / sizeof_Counter) 0 m,
          off + 16 ≤ 131072) :=
  ⟨names8192_length, by rw [names8192_length]; rfl,
    C20_region_separation 0 (byte ' ') 0 (2 ^ 64 - 1) names8192 names8192_nodup names8192_nonul
      (by rw [names8192_length]) (by rw [names8192_totalBytes]; decide)⟩

end insncounts

/-! ## Exit status of the reader on a backing file -/

namespace insncountsctl

set_option maxHeartbeats 1000000

end insncountsctl
